import Mathlib

/-!
Verification of the wleave adaptive grid layout engine (`src/layout.rs`).

Modelling conventions:
* Rust `f64` values are modelled as exact rationals (`ℚ`); every arithmetic
  expression is transcribed operation by operation from the source.
* Rust `usize` values are modelled as `ℕ`, with the wrapping subtraction and
  multiplication (release-profile two's-complement behaviour, modulo `2 ^ 64`)
  made explicit at the places the source performs them.
* `i32` values are modelled as `ℤ`; the saturating `f64 as i32` cast and the
  sign-extending `i32 as usize` cast are modelled explicitly.
* Checked (debug-profile) arithmetic is modelled separately by an
  `Option`-valued variant that returns `none` exactly where a debug build
  would abort on subtraction underflow or multiplication overflow.
-/

/-- Bit width modulus of `usize` (64-bit target). -/
def USZ : ℕ := 2 ^ 64

/-- `i32 as usize`: sign extension then reinterpretation, i.e. reduction mod `2 ^ 64`. -/
def toUsize (w : ℤ) : ℕ := (w % (USZ : ℤ)).toNat

/-- Wrapping `usize` subtraction `a - b` (release-profile behaviour). -/
def usizeSub (a b : ℕ) : ℕ := (a % USZ + USZ - b % USZ) % USZ

/-- Wrapping `usize` multiplication. -/
def usizeMul (a b : ℕ) : ℕ := a * b % USZ

/-- Checked `usize` subtraction: `none` exactly when a debug build would panic. -/
def checkedSub (a b : ℕ) : Option ℕ := if b ≤ a then some (a - b) else none

/-- Checked `usize` multiplication: `none` exactly when a debug build would panic. -/
def checkedMul (a b : ℕ) : Option ℕ := if a * b < USZ then some (a * b) else none

/-- Truncation of a rational toward zero (the rounding used by Rust `as` casts). -/
def ratTrunc (q : ℚ) : ℤ := if 0 ≤ q then ⌊q⌋ else ⌈q⌉

/-- Saturating clamp of an integer into the `i32` range. -/
def clampI32 (x : ℤ) : ℤ := max (-(2 ^ 31)) (min (2 ^ 31 - 1) x)

/-- The saturating `f64 as i32` cast. -/
def f64toI32 (q : ℚ) : ℤ := clampI32 (ratTrunc q)

/-- `f64::round`: rounding half away from zero. -/
def ratRound (q : ℚ) : ℤ := if 0 ≤ q then ⌊q + 1 / 2⌋ else ⌈q - 1 / 2⌉

/-- `expected.round() as i32` as used by `measure`. -/
def roundToI32 (q : ℚ) : ℤ := clampI32 (ratRound q)

/-- `(spacing as i32).max(0) as usize`: the clamped integer spacing used by the packer. -/
def spacingUsize (q : ℚ) : ℕ := (max 0 (f64toI32 q)).toNat

/-- The grid geometry tracked by the brute-force packing loop in
`MenuLayout::allocate`: current best `(rows, cols)` and cell size. -/
structure Geom where
  rows : ℕ
  cols : ℕ
  bw : ℚ
  bh : ℚ
deriving DecidableEq, Repr

/-- The candidate `(rows, cols)` pairs of the packing loop, in iteration order:
`i_rows` from 1 to `n` outer, `j_cols` from 1 to `n` inner, keeping exactly the
pairs that pass the tightness filter of the source
(`i*j > n + i || i*j > n + j || i*j < n` skips the pair). -/
def candRow (n i : ℕ) : List (ℕ × ℕ) :=
  (List.range n).filterMap fun j =>
    if (i + 1) * (j + 1) > n + (i + 1) ∨ (i + 1) * (j + 1) > n + (j + 1) ∨
        (i + 1) * (j + 1) < n then none
    else some (i + 1, j + 1)

def candidates (n : ℕ) : List (ℕ × ℕ) :=
  (List.range n).flatMap (candRow n)

/-- Candidate cell size `(w, h)` for a `(rows, cols)` pair, transcribed from the
`match self.aspect_ratio` expression of `MenuLayout::allocate`.  `wA`/`hA` are
the available width/height already converted to `usize`, `csp`/`rsp` the
clamped integer spacings. -/
def cellDims (aspect : Option ℚ) (wA hA csp rsp : ℕ) (r c : ℕ) : ℚ × ℚ :=
  let colGaps := c - 1
  let rowGaps := r - 1
  let wsub : ℚ := (usizeSub wA (usizeMul colGaps csp) : ℕ)
  let hsub : ℚ := (usizeSub hA (usizeMul rowGaps rsp) : ℕ)
  match aspect with
  | some a =>
    if 1 ≤ a then
      let w := wsub / (c : ℚ) * a
      let h := min (hsub / (r : ℚ)) (w / a)
      (h * a, h)
    else
      let h := hsub / (r : ℚ)
      let w := min (wsub / (c : ℚ) * a) (h * a)
      (w, w / a)
  | none => (wsub / (c : ℚ), hsub / (r : ℚ))

/-- One step of the packing loop: replace the current best geometry when the
candidate's cell area strictly exceeds it (`w * h > b_width * b_height`). -/
def packStep (aspect : Option ℚ) (wA hA csp rsp : ℕ) (g : Geom) (rc : ℕ × ℕ) : Geom :=
  let wh := cellDims aspect wA hA csp rsp rc.1 rc.2
  if g.bw * g.bh < wh.1 * wh.2 then ⟨rc.1, rc.2, wh.1, wh.2⟩ else g

/-- The brute-force packer of `MenuLayout::allocate`: fold over all candidate
pairs starting from `rows = 1, cols = 1, b_width = 0, b_height = 0`. -/
def gridPack (aspect : Option ℚ) (wA hA csp rsp n : ℕ) : Geom :=
  (candidates n).foldl (packStep aspect wA hA csp rsp) ⟨1, 1, 0, 0⟩

/-- Candidate cell size under checked (debug-profile) arithmetic: `none`
exactly when one of the two `usize` subtractions or gap multiplications of the
source would abort. -/
def cellDimsChecked (aspect : Option ℚ) (wA hA csp rsp : ℕ) (r c : ℕ) : Option (ℚ × ℚ) := do
  let colGaps := c - 1
  let rowGaps := r - 1
  let wgap ← checkedMul colGaps csp
  let hgap ← checkedMul rowGaps rsp
  let wn ← checkedSub wA wgap
  let hn ← checkedSub hA hgap
  let wsub : ℚ := (wn : ℚ)
  let hsub : ℚ := (hn : ℚ)
  match aspect with
  | some a =>
    if 1 ≤ a then
      let w := wsub / (c : ℚ) * a
      let h := min (hsub / (r : ℚ)) (w / a)
      pure (h * a, h)
    else
      let h := hsub / (r : ℚ)
      let w := min (wsub / (c : ℚ) * a) (h * a)
      pure (w, w / a)
  | none => pure (wsub / (c : ℚ), hsub / (r : ℚ))

/-- The packer under checked (debug-profile) arithmetic: `none` as soon as any
candidate's arithmetic would abort. -/
def gridPackChecked (aspect : Option ℚ) (wA hA csp rsp n : ℕ) : Option Geom :=
  (candidates n).foldl
    (fun og rc => do
      let g ← og
      let wh ← cellDimsChecked aspect wA hA csp rsp rc.1 rc.2
      pure (if g.bw * g.bh < wh.1 * wh.2 then ⟨rc.1, rc.2, wh.1, wh.2⟩ else g))
    (some ⟨1, 1, 0, 0⟩)

/-- The layout configuration re-read at the start of every allocate pass:
raw `f64` spacings and the optional aspect ratio
(`aspect_ratio_set.then(|| aspect_ratio)`). -/
structure MenuLayout where
  column_spacing : ℚ
  row_spacing : ℚ
  aspect : Option ℚ
deriving DecidableEq

/-- A child as seen by the allocator: only its `should_layout` flag matters. -/
structure Child where
  shouldLayout : Bool
deriving DecidableEq

/-- A placement rectangle `(x, y, w, h)` over a coordinate type. -/
structure Rect (α : Type) where
  x : α
  y : α
  w : α
  h : α
deriving DecidableEq

/-- A placement rectangle before the final `as i32` casts (exact values). -/
abbrev RatRect := Rect ℚ

/-- The final integer allocation written by `size_allocate`. -/
abbrev IntRect := Rect ℤ

/-- The geometry the allocate pass computes: the packer applied to the raw
inputs after the conversions performed at the top of `MenuLayout::allocate`
(`n = children.len()`, clamped spacings, `width as usize`, `height as usize`). -/
def allocGeometry (self : MenuLayout) (children : List Child) (width height : ℤ) : Geom :=
  gridPack self.aspect (toUsize width) (toUsize height)
    (spacingUsize self.column_spacing) (spacingUsize self.row_spacing) children.length

/-- The per-item placement rectangles of `MenuLayout::allocate` with exact
(rational) coordinates, before the final `as i32` casts.  `none` for an empty
child list (early return) is represented by the empty result list; `none` per
item means the item was skipped because `should_layout` is false. -/
def ratPlacements (self : MenuLayout) (children : List Child) (width height : ℤ) :
    List (Option RatRect) :=
  if children.isEmpty then []
  else
    let csp := spacingUsize self.column_spacing
    let rsp := spacingUsize self.row_spacing
    let g := allocGeometry self children width height
    let baseX : ℚ := ((width : ℚ) - ((g.cols - 1 : ℕ) : ℚ) * ((csp : ℚ) + g.bw) - g.bw) / 2
    let baseY : ℚ := ((height : ℚ) - ((g.rows - 1 : ℕ) : ℚ) * ((rsp : ℚ) + g.bh) - g.bh) / 2
    children.enum.map fun ic =>
      if ic.2.shouldLayout then
        let xg : ℚ := ((ic.1 % g.cols : ℕ) : ℚ)
        let yg : ℚ := ((ic.1 / g.cols : ℕ) : ℚ)
        let x := baseX + xg * g.bw + xg * self.column_spacing * (self.aspect.getD 1)
        let y := baseY + yg * g.bh + yg * self.row_spacing
        some ⟨x, y, g.bw, g.bh⟩
      else none

/-- `MenuLayout::allocate`: the integer allocations actually written to the
children (`x as i32, y as i32, b_width as i32, b_height as i32`). -/
def MenuLayout.allocate (self : MenuLayout) (children : List Child) (width height : ℤ) :
    List (Option IntRect) :=
  (ratPlacements self children width height).map fun o =>
    o.map fun r => ⟨f64toI32 r.x, f64toI32 r.y, f64toI32 r.w, f64toI32 r.h⟩

/-- Orientation of a measure query (`gtk4::Orientation`). -/
inductive Orient where
  | horizontal
  | vertical
deriving DecidableEq

/-- A child as seen by `measure`: its `should_layout` flag and the four values
its own `measure(orientation, for_size)` call reports for the queried axis. -/
structure MeasChild where
  shouldLayout : Bool
  cmin : ℤ
  cnat : ℤ
  cminBase : ℤ
  cnatBase : ℤ
deriving DecidableEq

/-- The envelope loop of `LayoutManagerImpl::measure`: running maxima over the
participating children, starting from `(0, 0, -1, -1)`, with the `-1` baseline
sentinel excluded from the baseline maxima. -/
def envStep (acc : ℤ × ℤ × ℤ × ℤ) (c : MeasChild) : ℤ × ℤ × ℤ × ℤ :=
  if c.shouldLayout then
    (max c.cmin acc.1, max c.cnat acc.2.1,
      if c.cminBase ≠ -1 then max acc.2.2.1 c.cminBase else acc.2.2.1,
      if c.cnatBase ≠ -1 then max acc.2.2.2 c.cnatBase else acc.2.2.2)
  else acc

def envFold (children : List MeasChild) : ℤ × ℤ × ℤ × ℤ :=
  children.foldl envStep (0, 0, -1, -1)

/-- `LayoutManagerImpl::measure`.  `aspect` is the raw `aspect-ratio` property
(`self.aspect_ratio.get()`), `aspectSet` the `aspect-ratio-set` property (which
the source never reads here), `widgetW`/`widgetH` the widget's current
width/height used by the `for_size == -1` arms. -/
def layoutMeasure (aspect : ℚ) (aspectSet : Bool) (widgetW widgetH : ℤ)
    (children : List MeasChild) (o : Orient) (forSize : ℤ) : ℤ × ℤ × ℤ × ℤ :=
  let e := envFold children
  let mn := e.1
  let nt := e.2.1
  let nt2 :=
    if forSize = -1 then
      match o with
      | .horizontal => max (min nt (roundToI32 ((widgetH : ℚ) * aspect))) mn
      | .vertical => max (min nt (roundToI32 ((widgetW : ℚ) / aspect))) mn
    else
      match o with
      | .horizontal => max (min nt (roundToI32 ((forSize : ℚ) * aspect))) mn
      | .vertical => max (min nt (roundToI32 ((forSize : ℚ) / aspect))) mn
  (mn, nt2, e.2.2.1, e.2.2.2)

/-- The natural-size envelope in the spec's words: the maximum over all
participating children of their reported natural size (0 when there are none).
Second definition for the refinement comparison against `layoutMeasure`. -/
def envelopeNatSpec (children : List MeasChild) : ℤ :=
  ((children.filter (·.shouldLayout)).map (·.cnat)).foldl max 0

/-- The minimum-size envelope in the spec's words. -/
def envelopeMinSpec (children : List MeasChild) : ℤ :=
  ((children.filter (·.shouldLayout)).map (·.cmin)).foldl max 0

/-- Left fold of `min` with an initial value. -/
def foldMin {α : Type} [LinearOrder α] (x : α) (xs : List α) : α := xs.foldl min x

/-- Left fold of `max` with an initial value. -/
def foldMax {α : Type} [LinearOrder α] (x : α) (xs : List α) : α := xs.foldl max x

/-- Bounding box `(left, top, right, bottom)` of a list of rectangles
(`none` for the empty list). -/
def bbox {α : Type} [LinearOrder α] [Add α] (l : List (Rect α)) :
    Option (α × α × α × α) :=
  match l with
  | [] => none
  | r :: rs =>
    some (foldMin r.x (rs.map (·.x)), foldMin r.y (rs.map (·.y)),
      foldMax (r.x + r.w) (rs.map fun t => t.x + t.w),
      foldMax (r.y + r.h) (rs.map fun t => t.y + t.h))

/-- The `(rows, cols)` tightness predicate in the spec's words. -/
def SpecTight (n r c : ℕ) : Prop := n ≤ r * c ∧ r * c - n < r ∧ r * c - n < c

/-- Strict "iteration order" on candidate pairs: earlier row, or same row and
earlier column. -/
def lexLt (a b : ℕ × ℕ) : Prop := a.1 < b.1 ∨ (a.1 = b.1 ∧ a.2 < b.2)

/-- The aspect-ratio reconciliation of the packing loop, expressed over the two
raw cell-size quotients (width-derived and height-derived). -/
def cellOfQuot (aspect : Option ℚ) (wq hq : ℚ) : ℚ × ℚ :=
  match aspect with
  | some a =>
    if 1 ≤ a then
      let w := wq * a
      let h := min hq (w / a)
      (h * a, h)
    else
      let w := min (wq * a) (hq * a)
      (w, w / a)
  | none => (wq, hq)

/-- Cell area of one candidate pair. -/
def cellArea (aspect : Option ℚ) (wA hA csp rsp : ℕ) (rc : ℕ × ℕ) : ℚ :=
  (cellDims aspect wA hA csp rsp rc.1 rc.2).1 * (cellDims aspect wA hA csp rsp rc.1 rc.2).2

/-- Invariant of the packing fold: the running best is either the initial
`1 × 1` zero-size state or one of the already-processed candidates (with its
exact cell size, both cell sides strictly positive), and its area dominates
the area of every processed candidate. -/
def PackInv (aspect : Option ℚ) (wA hA csp rsp : ℕ) (pre : List (ℕ × ℕ)) (g : Geom) :
    Prop :=
  (g = ⟨1, 1, 0, 0⟩ ∨
    ((g.rows, g.cols) ∈ pre ∧
      (g.bw, g.bh) = cellDims aspect wA hA csp rsp g.rows g.cols ∧
      0 < g.bw ∧ 0 < g.bh)) ∧
  ∀ rc ∈ pre, cellArea aspect wA hA csp rsp rc ≤ g.bw * g.bh

/-- Strict tightness, phrased the way the loop's filter would have to be
strengthened: strictly fewer leftover slots than one full row and one full
column. -/
def CodeStrictTight (n r c : ℕ) : Prop := r * c < n + r ∧ r * c < n + c

/-- The placement rectangle the allocator computes for slot `i` of geometry
`g` (the body of the placement loop of `MenuLayout::allocate`). -/
def gridRect (self : MenuLayout) (g : Geom) (width height : ℤ) (i : ℕ) : RatRect :=
  let csp := spacingUsize self.column_spacing
  let rsp := spacingUsize self.row_spacing
  let baseX : ℚ := ((width : ℚ) - ((g.cols - 1 : ℕ) : ℚ) * ((csp : ℚ) + g.bw) - g.bw) / 2
  let baseY : ℚ := ((height : ℚ) - ((g.rows - 1 : ℕ) : ℚ) * ((rsp : ℚ) + g.bh) - g.bh) / 2
  ⟨baseX + ((i % g.cols : ℕ) : ℚ) * g.bw +
      ((i % g.cols : ℕ) : ℚ) * self.column_spacing * (self.aspect.getD 1),
    baseY + ((i / g.cols : ℕ) : ℚ) * g.bh + ((i / g.cols : ℕ) : ℚ) * self.row_spacing,
    g.bw, g.bh⟩

theorem ratTrunc_intCast (z : ℤ) : ratTrunc (z : ℚ) = z := by
  unfold ratTrunc
  split <;> simp

theorem f64toI32_intCast (z : ℤ) (h1 : -(2 ^ 31) ≤ z) (h2 : z ≤ 2 ^ 31 - 1) :
    f64toI32 (z : ℚ) = z := by
  rw [f64toI32, ratTrunc_intCast, clampI32, min_eq_right h2, max_eq_right h1]

theorem spacingUsize_natCast (m : ℕ) (h : (m : ℤ) ≤ 2 ^ 31 - 1) :
    spacingUsize (m : ℚ) = m := by
  rw [spacingUsize, show ((m : ℚ)) = ((m : ℤ) : ℚ) by push_cast; ring,
    f64toI32_intCast _ (le_trans (by norm_num) (Int.natCast_nonneg m)) h,
    max_eq_right (by positivity), Int.toNat_natCast]

theorem spacingUsize_zero : spacingUsize 0 = 0 := by
  rw [show (0 : ℚ) = ((0 : ℕ) : ℚ) by norm_num, spacingUsize_natCast 0 (by norm_num)]

theorem spacingUsize_ten : spacingUsize 10 = 10 := by
  rw [show (10 : ℚ) = ((10 : ℕ) : ℚ) by norm_num, spacingUsize_natCast 10 (by norm_num)]

theorem gridPack_eval_600_300 : gridPack none 600 300 0 0 6 = ⟨1, 6, 100, 300⟩ := by
  rw [gridPack, show candidates 6 = [(1,6),(2,3),(2,4),(3,2),(3,3),(4,2),(6,1)] from by decide]
  norm_num [packStep, cellDims, usizeSub, usizeMul, USZ]

theorem gridPack_eval_500_500 : gridPack none 500 500 0 0 5 = ⟨1, 5, 100, 500⟩ := by
  rw [gridPack, show candidates 5 = [(1,5),(2,3),(3,2),(5,1)] from by decide]
  norm_num [packStep, cellDims, usizeSub, usizeMul, USZ]

theorem gridPack_eval_aspect2 : gridPack (some 2) 400 400 0 0 4 = ⟨2, 2, 400, 200⟩ := by
  rw [gridPack, show candidates 4 = [(1,4),(2,2),(2,3),(3,2),(4,1)] from by decide]
  norm_num [packStep, cellDims, usizeSub, usizeMul, USZ]

theorem gridPack_eval_aspect3 : gridPack (some 3) 400 100 10 0 2 = ⟨1, 2, 300, 100⟩ := by
  rw [gridPack, show candidates 2 = [(1,2),(2,1),(2,2)] from by decide]
  norm_num [packStep, cellDims, usizeSub, usizeMul, USZ]

theorem gridPack_eval_100_100_2 : gridPack none 100 100 0 0 2 = ⟨1, 2, 50, 100⟩ := by
  rw [gridPack, show candidates 2 = [(1,2),(2,1),(2,2)] from by decide]
  norm_num [packStep, cellDims, usizeSub, usizeMul, USZ]

theorem gridPack_eval_100_100_1 : gridPack none 100 100 0 0 1 = ⟨1, 1, 100, 100⟩ := by
  rw [gridPack, show candidates 1 = [(1,1)] from by decide]
  norm_num [packStep, cellDims, usizeSub, usizeMul, USZ]

theorem gridPack_eval_degenerate : gridPack none 0 0 0 0 2 = ⟨1, 1, 0, 0⟩ := by
  rw [gridPack, show candidates 2 = [(1,2),(2,1),(2,2)] from by decide]
  norm_num [packStep, cellDims, usizeSub, usizeMul, USZ]

theorem gridPack_eval_wrap :
    gridPack none 18446744073709551615 100 0 0 1 =
      ⟨1, 1, 18446744073709551615, 100⟩ := by
  rw [gridPack, show candidates 1 = [(1,1)] from by decide]
  norm_num [packStep, cellDims, usizeSub, usizeMul, USZ]

theorem gridPack_eval_w0 : gridPack none 0 100 0 0 1 = ⟨1, 1, 0, 0⟩ := by
  rw [gridPack, show candidates 1 = [(1,1)] from by decide]
  norm_num [packStep, cellDims, usizeSub, usizeMul, USZ]

theorem allocate_eval_c5 :
    MenuLayout.allocate ⟨10, 0, some 3⟩ [⟨true⟩, ⟨true⟩] 400 100 =
      [some ⟨-105, 0, 300, 100⟩, some ⟨225, 0, 300, 100⟩] := by
  have hsp : spacingUsize 10 = 10 := spacingUsize_ten
  have hsp0 : spacingUsize 0 = 0 := spacingUsize_zero
  have hg : allocGeometry ⟨10, 0, some 3⟩ [⟨true⟩, ⟨true⟩] 400 100 = ⟨1, 2, 300, 100⟩ := by
    rw [allocGeometry, show toUsize 400 = 400 from by decide,
      show toUsize 100 = 100 from by decide, hsp, hsp0]
    exact gridPack_eval_aspect3
  have hc : ∀ z : ℤ, -(2 ^ 31) ≤ z → z ≤ 2 ^ 31 - 1 → f64toI32 (z : ℚ) = z := f64toI32_intCast
  have h1 : f64toI32 (-105 : ℚ) = -105 := by
    rw [show (-105 : ℚ) = ((-105 : ℤ) : ℚ) by norm_num, hc _ (by norm_num) (by norm_num)]
  have h2 : f64toI32 (225 : ℚ) = 225 := by
    rw [show (225 : ℚ) = ((225 : ℤ) : ℚ) by norm_num, hc _ (by norm_num) (by norm_num)]
  have h3 : f64toI32 (300 : ℚ) = 300 := by
    rw [show (300 : ℚ) = ((300 : ℤ) : ℚ) by norm_num, hc _ (by norm_num) (by norm_num)]
  have h4 : f64toI32 (100 : ℚ) = 100 := by
    rw [show (100 : ℚ) = ((100 : ℤ) : ℚ) by norm_num, hc _ (by norm_num) (by norm_num)]
  have h5 : f64toI32 (0 : ℚ) = 0 := by
    rw [show (0 : ℚ) = ((0 : ℤ) : ℚ) by norm_num, hc _ (by norm_num) (by norm_num)]
  rw [MenuLayout.allocate, ratPlacements]
  norm_num [hg, hsp, hsp0, List.enum, List.enumFrom]
  norm_num [h1, h2, h3, h4, h5]

theorem allocate_eval_one :
    MenuLayout.allocate ⟨0, 0, none⟩ [⟨true⟩] 100 100 = [some ⟨0, 0, 100, 100⟩] := by
  have hsp0 : spacingUsize 0 = 0 := spacingUsize_zero
  have hg : allocGeometry ⟨0, 0, none⟩ [⟨true⟩] 100 100 = ⟨1, 1, 100, 100⟩ := by
    rw [allocGeometry, show toUsize 100 = 100 from by decide, hsp0]
    exact gridPack_eval_100_100_1
  have hc : ∀ z : ℤ, -(2 ^ 31) ≤ z → z ≤ 2 ^ 31 - 1 → f64toI32 (z : ℚ) = z := f64toI32_intCast
  have h4 : f64toI32 (100 : ℚ) = 100 := by
    rw [show (100 : ℚ) = ((100 : ℤ) : ℚ) by norm_num, hc _ (by norm_num) (by norm_num)]
  have h5 : f64toI32 (0 : ℚ) = 0 := by
    rw [show (0 : ℚ) = ((0 : ℤ) : ℚ) by norm_num, hc _ (by norm_num) (by norm_num)]
  rw [MenuLayout.allocate, ratPlacements]
  norm_num [hg, hsp0, List.enum, List.enumFrom]
  norm_num [h4, h5]

theorem mem_candRow {n i : ℕ} {x : ℕ × ℕ} :
    x ∈ candRow n i ↔
      ∃ j < n, x = (i + 1, j + 1) ∧ (i + 1) * (j + 1) ≤ n + (i + 1) ∧
        (i + 1) * (j + 1) ≤ n + (j + 1) ∧ n ≤ (i + 1) * (j + 1) := by
  unfold candRow
  simp only [List.mem_filterMap, List.mem_range]
  constructor
  · rintro ⟨j, hj, hx⟩
    split at hx
    · exact absurd hx (by simp)
    · rename_i hcond
      push_neg at hcond
      refine ⟨j, hj, ?_, by omega, by omega, by omega⟩
      exact (Option.some.inj hx).symm
  · rintro ⟨j, hj, rfl, h1, h2, h3⟩
    refine ⟨j, hj, ?_⟩
    rw [if_neg (by push_neg; omega)]

theorem mem_candidates {n r c : ℕ} :
    (r, c) ∈ candidates n ↔
      1 ≤ r ∧ r ≤ n ∧ 1 ≤ c ∧ c ≤ n ∧
        r * c ≤ n + r ∧ r * c ≤ n + c ∧ n ≤ r * c := by
  unfold candidates
  simp only [List.mem_flatMap, List.mem_range]
  constructor
  · rintro ⟨i, hi, hx⟩
    rcases mem_candRow.mp hx with ⟨j, hj, hpair, h1, h2, h3⟩
    obtain ⟨rfl, rfl⟩ := Prod.mk.injEq .. ▸ hpair
    exact ⟨by omega, by omega, by omega, by omega, h1, h2, h3⟩
  · rintro ⟨h1, h2, h3, h4, h5, h6, h7⟩
    have hr : r - 1 + 1 = r := by omega
    have hc : c - 1 + 1 = c := by omega
    refine ⟨r - 1, by omega, mem_candRow.mpr ⟨c - 1, by omega, ?_, ?_, ?_, ?_⟩⟩ <;>
      rw [hr, hc]
    exacts [h5, h6, h7]

theorem candidates_sorted (n : ℕ) : (candidates n).Pairwise lexLt := by
  unfold candidates
  rw [List.pairwise_flatMap]
  constructor
  · intro i _
    unfold candRow
    refine List.Pairwise.filterMap _ ?_ (List.pairwise_lt_range n)
    intro j j' hjj b hb b' hb'
    split at hb
    · exact absurd hb (by simp)
    · split at hb'
      · exact absurd hb' (by simp)
      · obtain rfl := Option.some.inj hb
        obtain rfl := Option.some.inj hb'
        exact Or.inr ⟨rfl, by omega⟩
  · refine (List.pairwise_lt_range n).imp ?_
    intro i i' hii x hx y hy
    rcases mem_candRow.mp hx with ⟨j, _, rfl, -, -, -⟩
    rcases mem_candRow.mp hy with ⟨j', _, rfl, -, -, -⟩
    exact Or.inl (by omega)

/-- In the sorted candidate list, anything `lexLt`-below an element of the
suffix lies in the prefix. -/
theorem mem_pre_of_lexLt {n : ℕ} {pre post : List (ℕ × ℕ)} {x y : ℕ × ℕ}
    (hdec : candidates n = pre ++ x :: post) (hy : y ∈ candidates n)
    (hlt : lexLt y x) : y ∈ pre := by
  have hsort := candidates_sorted n
  rw [hdec] at hsort hy
  rcases List.mem_append.mp hy with h | h
  · exact h
  · rcases List.mem_cons.mp h with rfl | h
    · exact absurd hlt (by unfold lexLt; omega)
    · have := ((List.pairwise_append.mp hsort).2.1)
      have hxy : lexLt x y := (List.pairwise_cons.mp this).1 y h
      exact absurd hxy (by unfold lexLt at hlt ⊢; omega)

theorem cellDims_eq_quot (aspect : Option ℚ) (wA hA csp rsp r c : ℕ) :
    cellDims aspect wA hA csp rsp r c =
      cellOfQuot aspect ((usizeSub wA (usizeMul (c - 1) csp) : ℕ) / (c : ℚ))
        ((usizeSub hA (usizeMul (r - 1) rsp) : ℕ) / (r : ℚ)) := by
  cases aspect <;> rfl

theorem cellOfQuot_h_nonneg (aspect : Option ℚ) {wq hq : ℚ} (hw : 0 ≤ wq) (hh : 0 ≤ hq) :
    0 ≤ (cellOfQuot aspect wq hq).2 := by
  rcases aspect with _ | a
  · exact hh
  · unfold cellOfQuot
    by_cases h1 : 1 ≤ a
    · have ha0 : (0 : ℚ) < a := lt_of_lt_of_le one_pos h1
      simp only [h1, if_pos]
      exact le_min hh (by positivity)
    · simp only [h1, if_neg, not_false_iff]
      rcases lt_trichotomy a 0 with hneg | rfl | hpos
      · have hwle : min (wq * a) (hq * a) ≤ 0 :=
          le_trans (min_le_left _ _) (mul_nonpos_iff.mpr (Or.inl ⟨hw, le_of_lt hneg⟩))
        rw [div_eq_mul_inv]
        exact mul_nonneg_of_nonpos_of_nonpos hwle (inv_nonpos.mpr (le_of_lt hneg))
      · simp
      · exact div_nonneg (le_min (by positivity) (by positivity)) (le_of_lt hpos)

theorem cellOfQuot_w_nonneg {aspect : Option ℚ}
    (haspect : ∀ a, aspect = some a → 0 < a) {wq hq : ℚ} (hw : 0 ≤ wq) (hh : 0 ≤ hq) :
    0 ≤ (cellOfQuot aspect wq hq).1 := by
  rcases aspect with _ | a
  · exact hw
  · have ha0 : (0 : ℚ) < a := haspect a rfl
    unfold cellOfQuot
    by_cases h1 : 1 ≤ a
    · simp only [h1, if_pos]
      exact mul_nonneg (le_min hh (by positivity)) (le_of_lt ha0)
    · simp only [h1, if_neg, not_false_iff]
      exact le_min (by positivity) (by positivity)

theorem cellOfQuot_area_pos {aspect : Option ℚ}
    (haspect : ∀ a, aspect = some a → 0 < a) {wq hq : ℚ} (hw : 0 < wq) (hh : 0 < hq) :
    0 < (cellOfQuot aspect wq hq).1 * (cellOfQuot aspect wq hq).2 := by
  rcases aspect with _ | a
  · exact mul_pos hw hh
  · have ha0 : (0 : ℚ) < a := haspect a rfl
    unfold cellOfQuot
    by_cases h1 : 1 ≤ a
    · simp only [h1, if_pos]
      have hhp : 0 < min hq (wq * a / a) := lt_min hh (by positivity)
      positivity
    · simp only [h1, if_neg, not_false_iff]
      have hwp : 0 < min (wq * a) (hq * a) := lt_min (by positivity) (by positivity)
      positivity

theorem cellOfQuot_area_nonpos {a : ℚ} (ha : a ≤ 0) {wq hq : ℚ}
    (hw : 0 ≤ wq) (hh : 0 ≤ hq) :
    (cellOfQuot (some a) wq hq).1 * (cellOfQuot (some a) wq hq).2 ≤ 0 := by
  unfold cellOfQuot
  have h1 : ¬(1 ≤ a) := by linarith
  simp only [h1, if_neg, not_false_iff]
  rcases eq_or_lt_of_le ha with rfl | hneg
  · simp
  · have hwle : min (wq * a) (hq * a) ≤ 0 :=
      le_trans (min_le_left _ _) (mul_nonpos_iff.mpr (Or.inl ⟨hw, le_of_lt hneg⟩))
    refine mul_nonpos_iff.mpr (Or.inr ⟨hwle, ?_⟩)
    rw [div_eq_mul_inv]
    exact mul_nonneg_of_nonpos_of_nonpos hwle (inv_nonpos.mpr (le_of_lt hneg))

theorem cellOfQuot_area_mono_w {aspect : Option ℚ}
    (haspect : ∀ a, aspect = some a → 0 < a) {wq wq' hq : ℚ}
    (hw : 0 ≤ wq) (hle : wq ≤ wq') (hh : 0 ≤ hq) :
    (cellOfQuot aspect wq hq).1 * (cellOfQuot aspect wq hq).2 ≤
      (cellOfQuot aspect wq' hq).1 * (cellOfQuot aspect wq' hq).2 := by
  rcases aspect with _ | a
  · exact mul_le_mul_of_nonneg_right hle hh
  · have ha0 : (0 : ℚ) < a := haspect a rfl
    have hane : a ≠ 0 := ne_of_gt ha0
    unfold cellOfQuot
    by_cases h1 : 1 ≤ a
    · simp only [h1, if_pos, mul_div_assoc, div_self hane, mul_one]
      have hmle : min hq wq ≤ min hq wq' := min_le_min (le_refl hq) hle
      have hm0 : 0 ≤ min hq wq := le_min hh hw
      exact mul_le_mul (mul_le_mul_of_nonneg_right hmle (le_of_lt ha0)) hmle hm0
        (mul_nonneg (le_min hh (le_trans hw hle)) (le_of_lt ha0))
    · simp only [h1, if_neg, not_false_iff]
      have hmle : min (wq * a) (hq * a) ≤ min (wq' * a) (hq * a) :=
        min_le_min (mul_le_mul_of_nonneg_right hle (le_of_lt ha0)) (le_refl _)
      have hm0 : 0 ≤ min (wq * a) (hq * a) := le_min (by positivity) (by positivity)
      exact mul_le_mul hmle (by gcongr) (div_nonneg hm0 (le_of_lt ha0))
        (le_trans hm0 hmle)

theorem cellOfQuot_area_mono_h {aspect : Option ℚ}
    (haspect : ∀ a, aspect = some a → 0 < a) {wq hq hq' : ℚ}
    (hw : 0 ≤ wq) (hh : 0 ≤ hq) (hle : hq ≤ hq') :
    (cellOfQuot aspect wq hq).1 * (cellOfQuot aspect wq hq).2 ≤
      (cellOfQuot aspect wq hq').1 * (cellOfQuot aspect wq hq').2 := by
  rcases aspect with _ | a
  · exact mul_le_mul_of_nonneg_left hle hw
  · have ha0 : (0 : ℚ) < a := haspect a rfl
    have hane : a ≠ 0 := ne_of_gt ha0
    unfold cellOfQuot
    by_cases h1 : 1 ≤ a
    · simp only [h1, if_pos, mul_div_assoc, div_self hane, mul_one]
      have hmle : min hq wq ≤ min hq' wq := min_le_min hle (le_refl wq)
      have hm0 : 0 ≤ min hq wq := le_min hh hw
      exact mul_le_mul (mul_le_mul_of_nonneg_right hmle (le_of_lt ha0)) hmle hm0
        (mul_nonneg (le_min (le_trans hh hle) hw) (le_of_lt ha0))
    · simp only [h1, if_neg, not_false_iff]
      have hmle : min (wq * a) (hq * a) ≤ min (wq * a) (hq' * a) :=
        min_le_min (le_refl _) (mul_le_mul_of_nonneg_right hle (le_of_lt ha0))
      have hm0 : 0 ≤ min (wq * a) (hq * a) := le_min (by positivity) (by positivity)
      exact mul_le_mul hmle (by gcongr) (div_nonneg hm0 (le_of_lt ha0))
        (le_trans hm0 hmle)

theorem usizeSub_usizeMul_eq {a g s : ℕ} (haU : a < USZ) (hle : g * s ≤ a) :
    usizeSub a (usizeMul g s) = a - g * s := by
  have hU : USZ = 18446744073709551616 := by norm_num [USZ]
  unfold usizeSub usizeMul
  rw [hU] at haU ⊢
  omega

theorem cellDims_h_nonneg (aspect : Option ℚ) (wA hA csp rsp r c : ℕ) :
    0 ≤ (cellDims aspect wA hA csp rsp r c).2 := by
  rw [cellDims_eq_quot]
  exact cellOfQuot_h_nonneg _ (by positivity) (by positivity)

theorem cellDims_w_nonneg {aspect : Option ℚ} (haspect : ∀ a, aspect = some a → 0 < a)
    (wA hA csp rsp r c : ℕ) : 0 ≤ (cellDims aspect wA hA csp rsp r c).1 := by
  rw [cellDims_eq_quot]
  exact cellOfQuot_w_nonneg haspect (by positivity) (by positivity)

theorem cellArea_nonpos_of_aspect {a : ℚ} (ha : a ≤ 0) (wA hA csp rsp : ℕ) (rc : ℕ × ℕ) :
    cellArea (some a) wA hA csp rsp rc ≤ 0 := by
  unfold cellArea
  rw [cellDims_eq_quot]
  exact cellOfQuot_area_nonpos ha (by positivity) (by positivity)

/-- Removing the last, partially-filled column (exact partner) never shrinks
the cell area: the candidate `(r, c)` is dominated by `(r, c - 1)`. -/
theorem cellArea_col_partner {aspect : Option ℚ}
    (haspect : ∀ a, aspect = some a → 0 < a) {wA hA csp rsp r c : ℕ}
    (hWU : wA < USZ) (hc : 2 ≤ c) (hWc : (c - 1) * csp ≤ wA) :
    cellArea aspect wA hA csp rsp (r, c) ≤ cellArea aspect wA hA csp rsp (r, c - 1) := by
  unfold cellArea
  simp only [cellDims_eq_quot]
  have hWc' : (c - 1 - 1) * csp ≤ wA :=
    le_trans (Nat.mul_le_mul_right csp (by omega)) hWc
  rw [usizeSub_usizeMul_eq hWU hWc, usizeSub_usizeMul_eq hWU hWc']
  apply cellOfQuot_area_mono_w haspect
  · positivity
  · have hc2 : (2 : ℚ) ≤ (c : ℚ) := by exact_mod_cast hc
    have hcc : ((c - 1 : ℕ) : ℚ) = (c : ℚ) - 1 := by
      have h1 : (1 : ℕ) ≤ c := by omega
      push_cast [h1]
      ring
    have hAA : ((wA - (c - 1) * csp : ℕ) : ℚ) ≤ ((wA - (c - 1 - 1) * csp : ℕ) : ℚ) := by
      exact_mod_cast Nat.sub_le_sub_left (Nat.mul_le_mul_right csp (by omega)) wA
    rw [hcc, div_le_div_iff (by linarith) (by linarith)]
    exact mul_le_mul hAA (by linarith) (by linarith) (by positivity)
  · positivity

/-- Removing the last, partially-filled row (exact partner) never shrinks the
cell area: the candidate `(r, c)` is dominated by `(r - 1, c)`. -/
theorem cellArea_row_partner {aspect : Option ℚ}
    (haspect : ∀ a, aspect = some a → 0 < a) {wA hA csp rsp r c : ℕ}
    (hHU : hA < USZ) (hr : 2 ≤ r) (hHr : (r - 1) * rsp ≤ hA) :
    cellArea aspect wA hA csp rsp (r, c) ≤ cellArea aspect wA hA csp rsp (r - 1, c) := by
  unfold cellArea
  simp only [cellDims_eq_quot]
  have hHr' : (r - 1 - 1) * rsp ≤ hA :=
    le_trans (Nat.mul_le_mul_right rsp (by omega)) hHr
  rw [usizeSub_usizeMul_eq hHU hHr, usizeSub_usizeMul_eq hHU hHr']
  apply cellOfQuot_area_mono_h haspect
  · positivity
  · positivity
  · have hr2 : (2 : ℚ) ≤ (r : ℚ) := by exact_mod_cast hr
    have hrr : ((r - 1 : ℕ) : ℚ) = (r : ℚ) - 1 := by
      have h1 : (1 : ℕ) ≤ r := by omega
      push_cast [h1]
      ring
    have hAA : ((hA - (r - 1) * rsp : ℕ) : ℚ) ≤ ((hA - (r - 1 - 1) * rsp : ℕ) : ℚ) := by
      exact_mod_cast Nat.sub_le_sub_left (Nat.mul_le_mul_right rsp (by omega)) hA
    rw [hrr, div_le_div_iff (by linarith) (by linarith)]
    exact mul_le_mul hAA (by linarith) (by linarith) (by positivity)

/-- Pointwise in every candidate, the cell area is monotone in the available
width, provided the width-side subtraction does not wrap. -/
theorem cellArea_mono_wAvail {aspect : Option ℚ}
    (haspect : ∀ a, aspect = some a → 0 < a) {wA1 wA2 hA csp rsp r c : ℕ}
    (hW2U : wA2 < USZ) (h12 : wA1 ≤ wA2) (hc1 : 1 ≤ c) (hWc : (c - 1) * csp ≤ wA1) :
    cellArea aspect wA1 hA csp rsp (r, c) ≤ cellArea aspect wA2 hA csp rsp (r, c) := by
  unfold cellArea
  simp only [cellDims_eq_quot]
  rw [usizeSub_usizeMul_eq (lt_of_le_of_lt h12 hW2U) hWc,
    usizeSub_usizeMul_eq hW2U (le_trans hWc h12)]
  apply cellOfQuot_area_mono_w haspect
  · positivity
  · have hA12 : ((wA1 - (c - 1) * csp : ℕ) : ℚ) ≤ ((wA2 - (c - 1) * csp : ℕ) : ℚ) := by
      exact_mod_cast Nat.sub_le_sub_right h12 ((c - 1) * csp)
    have hcp : (0 : ℚ) < (c : ℚ) := by exact_mod_cast hc1
    gcongr
  · positivity

theorem PackInv.area_nonneg {aspect : Option ℚ} {wA hA csp rsp : ℕ}
    {pre : List (ℕ × ℕ)} {g : Geom} (h : PackInv aspect wA hA csp rsp pre g) :
    0 ≤ g.bw * g.bh := by
  rcases h.1 with rfl | ⟨-, -, hw, hh⟩
  · norm_num
  · positivity

theorem packStep_inv {aspect : Option ℚ} {wA hA csp rsp : ℕ}
    {pre : List (ℕ × ℕ)} {g : Geom} (x : ℕ × ℕ)
    (hinv : PackInv aspect wA hA csp rsp pre g) :
    PackInv aspect wA hA csp rsp (pre ++ [x]) (packStep aspect wA hA csp rsp g x) := by
  unfold packStep
  by_cases hsel : g.bw * g.bh <
      (cellDims aspect wA hA csp rsp x.1 x.2).1 * (cellDims aspect wA hA csp rsp x.1 x.2).2
  · rw [if_pos hsel]
    have hpos : 0 < (cellDims aspect wA hA csp rsp x.1 x.2).1 *
        (cellDims aspect wA hA csp rsp x.1 x.2).2 :=
      lt_of_le_of_lt hinv.area_nonneg hsel
    have hh0 : 0 ≤ (cellDims aspect wA hA csp rsp x.1 x.2).2 :=
      cellDims_h_nonneg aspect wA hA csp rsp x.1 x.2
    have hwh : 0 < (cellDims aspect wA hA csp rsp x.1 x.2).1 ∧
        0 < (cellDims aspect wA hA csp rsp x.1 x.2).2 := by
      rcases mul_pos_iff.mp hpos with h | ⟨-, hh⟩
      · exact h
      · exact absurd hh (not_lt.mpr hh0)
    refine ⟨Or.inr ⟨List.mem_append_right pre (by simp), by simp, hwh.1, hwh.2⟩, ?_⟩
    intro rc hrc
    rcases List.mem_append.mp hrc with hmem | hmem
    · exact le_of_lt (lt_of_le_of_lt (hinv.2 rc hmem) hsel)
    · rcases List.mem_singleton.mp hmem with rfl
      exact le_of_eq rfl
  · rw [if_neg hsel]
    refine ⟨?_, ?_⟩
    · rcases hinv.1 with h | ⟨hmem, hcell, hw, hh⟩
      · exact Or.inl h
      · exact Or.inr ⟨List.mem_append_left _ hmem, hcell, hw, hh⟩
    · intro rc hrc
      rcases List.mem_append.mp hrc with hmem | hmem
      · exact hinv.2 rc hmem
      · rcases List.mem_singleton.mp hmem with rfl
        exact not_lt.mp hsel

theorem foldl_packInv {aspect : Option ℚ} {wA hA csp rsp : ℕ} :
    ∀ (l pre : List (ℕ × ℕ)) (g : Geom),
      PackInv aspect wA hA csp rsp pre g →
      PackInv aspect wA hA csp rsp (pre ++ l)
        (l.foldl (packStep aspect wA hA csp rsp) g) := by
  intro l
  induction l with
  | nil => intro pre g h; simpa using h
  | cons x l ih =>
    intro pre g h
    rw [List.foldl_cons]
    have h3 := ih (pre ++ [x]) _ (packStep_inv x h)
    rw [List.append_assoc] at h3
    simpa using h3

theorem gridPack_inv (aspect : Option ℚ) (wA hA csp rsp n : ℕ) :
    PackInv aspect wA hA csp rsp (candidates n) (gridPack aspect wA hA csp rsp n) := by
  have h0 : PackInv aspect wA hA csp rsp [] ⟨1, 1, 0, 0⟩ := ⟨Or.inl rfl, by simp⟩
  have := foldl_packInv (candidates n) [] ⟨1, 1, 0, 0⟩ h0
  simpa [gridPack] using this

/-- A selected candidate is strictly tight: a weakly tight candidate
(`r*c = n + r` or `r*c = n + c`) is dominated by its exact partner, which the
loop already visited, so it can never strictly exceed the running best. -/
theorem packStep_tight {aspect : Option ℚ} {wA hA csp rsp n : ℕ}
    (haspect : ∀ a, aspect = some a → 0 < a) (hn : 1 ≤ n)
    (hWU : wA < USZ) (hHU : hA < USZ)
    (hWn : (n - 1) * csp ≤ wA) (hHn : (n - 1) * rsp ≤ hA)
    {pre post : List (ℕ × ℕ)} {g : Geom} {x : ℕ × ℕ}
    (hdec : candidates n = pre ++ x :: post)
    (hinv : PackInv aspect wA hA csp rsp pre g)
    (htight : g = ⟨1, 1, 0, 0⟩ ∨ CodeStrictTight n g.rows g.cols) :
    (packStep aspect wA hA csp rsp g x = ⟨1, 1, 0, 0⟩ ∨
      CodeStrictTight n (packStep aspect wA hA csp rsp g x).rows
        (packStep aspect wA hA csp rsp g x).cols) := by
  unfold packStep
  by_cases hsel : g.bw * g.bh <
      (cellDims aspect wA hA csp rsp x.1 x.2).1 * (cellDims aspect wA hA csp rsp x.1 x.2).2
  · rw [if_pos hsel]
    right
    obtain ⟨xr, xc⟩ := x
    show CodeStrictTight n xr xc
    have hxmem : (xr, xc) ∈ candidates n := by
      rw [hdec]
      exact List.mem_append_right _ (List.mem_cons_self _ _)
    obtain ⟨hr1, hrn, hc1, hcn, hacc1, hacc2, hacc3⟩ := mem_candidates.mp hxmem
    by_contra hweak
    unfold CodeStrictTight at hweak
    push_neg at hweak
    have hdom : ∃ p, p ∈ candidates n ∧ lexLt p (xr, xc) ∧
        cellArea aspect wA hA csp rsp (xr, xc) ≤ cellArea aspect wA hA csp rsp p := by
      rcases le_or_lt (n + xr) (xr * xc) with hcol | hcol
      · -- column-weak: xr * xc = n + xr, exact partner (xr, xc - 1)
        have hceq : xr * xc = n + xr := le_antisymm hacc1 hcol
        have hc2 : 2 ≤ xc := by
          rcases Nat.lt_or_ge xc 2 with h | h
          · interval_cases xc <;> omega
          · exact h
        have hdist : xr * (xc - 1) = xr * xc - xr := by
          rw [Nat.mul_sub, mul_one]
        have hpeq : xr * (xc - 1) = n := by omega
        refine ⟨(xr, xc - 1), mem_candidates.mpr ?_, Or.inr ⟨rfl, by omega⟩, ?_⟩
        · have hxr : xr ≤ n := le_trans (Nat.le_mul_of_pos_right xr (by omega)) hpeq.le
          have hxc : xc - 1 ≤ n := le_trans (Nat.le_mul_of_pos_left (xc - 1) (by omega))
            hpeq.le
          exact ⟨hr1, hxr, by omega, hxc, by omega, by omega, by omega⟩
        · exact cellArea_col_partner haspect hWU hc2
            (le_trans (Nat.mul_le_mul_right csp (by omega)) hWn)
      · rcases le_or_lt (n + xc) (xr * xc) with hrow | hrow
        · -- row-weak: xr * xc = n + xc, exact partner (xr - 1, xc)
          have hreq : xr * xc = n + xc := le_antisymm hacc2 hrow
          have hr2 : 2 ≤ xr := by
            rcases Nat.lt_or_ge xr 2 with h | h
            · interval_cases xr <;> omega
            · exact h
          have hdist : (xr - 1) * xc = xr * xc - xc := by
            rw [Nat.sub_mul, one_mul]
          have hpeq : (xr - 1) * xc = n := by omega
          refine ⟨(xr - 1, xc), mem_candidates.mpr ?_, Or.inl (by omega), ?_⟩
          · have hxr : xr - 1 ≤ n := le_trans (Nat.le_mul_of_pos_right (xr - 1) (by omega))
              hpeq.le
            have hxc : xc ≤ n := le_trans (Nat.le_mul_of_pos_left xc (by omega)) hpeq.le
            exact ⟨by omega, hxr, hc1, hxc, by omega, by omega, by omega⟩
          · exact cellArea_row_partner haspect hHU hr2
              (le_trans (Nat.mul_le_mul_right rsp (by omega)) hHn)
        · omega
    obtain ⟨p, hpmem, hplt, hple⟩ := hdom
    have hppre : p ∈ pre := mem_pre_of_lexLt hdec hpmem hplt
    have : cellArea aspect wA hA csp rsp p ≤ g.bw * g.bh := hinv.2 p hppre
    have hxarea : cellArea aspect wA hA csp rsp (xr, xc) ≤ g.bw * g.bh :=
      le_trans hple this
    exact absurd hsel (not_lt.mpr hxarea)
  · rw [if_neg hsel]
    exact htight

theorem foldl_packTight {aspect : Option ℚ} {wA hA csp rsp n : ℕ}
    (haspect : ∀ a, aspect = some a → 0 < a) (hn : 1 ≤ n)
    (hWU : wA < USZ) (hHU : hA < USZ)
    (hWn : (n - 1) * csp ≤ wA) (hHn : (n - 1) * rsp ≤ hA) :
    ∀ (l pre : List (ℕ × ℕ)) (g : Geom),
      candidates n = pre ++ l →
      PackInv aspect wA hA csp rsp pre g →
      (g = ⟨1, 1, 0, 0⟩ ∨ CodeStrictTight n g.rows g.cols) →
      ((l.foldl (packStep aspect wA hA csp rsp) g) = ⟨1, 1, 0, 0⟩ ∨
        CodeStrictTight n (l.foldl (packStep aspect wA hA csp rsp) g).rows
          (l.foldl (packStep aspect wA hA csp rsp) g).cols) := by
  intro l
  induction l with
  | nil => intro pre g _ _ ht; simpa using ht
  | cons x l ih =>
    intro pre g hdec hinv ht
    rw [List.foldl_cons]
    refine ih (pre ++ [x]) _ ?_ (packStep_inv x hinv)
      (packStep_tight haspect hn hWU hHU hWn hHn hdec hinv ht)
    rw [List.append_assoc]
    simpa using hdec

/-- Main packer specification under non-degenerate inputs: no wrapping on
either axis, a positive aspect ratio when one is set, positive usable width
and height.  The returned geometry is an actually-visited candidate with its
exact positive cell size, and it is strictly tight. -/
theorem gridPack_spec {aspect : Option ℚ} {wA hA csp rsp n : ℕ}
    (haspect : ∀ a, aspect = some a → 0 < a) (hn : 1 ≤ n)
    (hWU : wA < USZ) (hHU : hA < USZ)
    (hWpos : (n - 1) * csp < wA) (hHn : (n - 1) * rsp ≤ hA) (hHpos : 0 < hA) :
    ((gridPack aspect wA hA csp rsp n).rows, (gridPack aspect wA hA csp rsp n).cols) ∈
      candidates n ∧
    ((gridPack aspect wA hA csp rsp n).bw, (gridPack aspect wA hA csp rsp n).bh) =
      cellDims aspect wA hA csp rsp (gridPack aspect wA hA csp rsp n).rows
        (gridPack aspect wA hA csp rsp n).cols ∧
    0 < (gridPack aspect wA hA csp rsp n).bw ∧
    0 < (gridPack aspect wA hA csp rsp n).bh ∧
    CodeStrictTight n (gridPack aspect wA hA csp rsp n).rows
      (gridPack aspect wA hA csp rsp n).cols := by
  have hinv := gridPack_inv aspect wA hA csp rsp n
  have htight := foldl_packTight haspect hn hWU hHU (le_of_lt hWpos) hHn
    (candidates n) [] ⟨1, 1, 0, 0⟩ (by simp) ⟨Or.inl rfl, by simp⟩ (Or.inl rfl)
  rw [show (candidates n).foldl (packStep aspect wA hA csp rsp) ⟨1, 1, 0, 0⟩ =
    gridPack aspect wA hA csp rsp n from rfl] at htight
  have h1n : (1, n) ∈ candidates n := mem_candidates.mpr (by simp only [one_mul]; omega)
  have harea : 0 < cellArea aspect wA hA csp rsp (1, n) := by
    unfold cellArea
    simp only [cellDims_eq_quot]
    rw [usizeSub_usizeMul_eq hWU (le_of_lt hWpos),
      usizeSub_usizeMul_eq hHU (show (1 - 1) * rsp ≤ hA by simp)]
    apply cellOfQuot_area_pos haspect
    · have hpos : 0 < wA - (n - 1) * csp := by omega
      have hc1 : (0 : ℚ) < ((wA - (n - 1) * csp : ℕ) : ℚ) := by exact_mod_cast hpos
      have hc2 : (0 : ℚ) < (n : ℚ) := by exact_mod_cast hn
      positivity
    · have hc1 : (0 : ℚ) < ((hA - (1 - 1) * rsp : ℕ) : ℚ) := by
        simp only [Nat.sub_self, zero_mul, Nat.sub_zero]
        exact_mod_cast hHpos
      simp only [Nat.cast_one]
      simpa using hc1
  have hgpos : 0 < (gridPack aspect wA hA csp rsp n).bw *
      (gridPack aspect wA hA csp rsp n).bh :=
    lt_of_lt_of_le harea (hinv.2 (1, n) h1n)
  have hne : gridPack aspect wA hA csp rsp n ≠ ⟨1, 1, 0, 0⟩ := by
    intro h
    rw [h] at hgpos
    norm_num at hgpos
  rcases hinv.1 with h | ⟨hmem, hcell, hw, hh⟩
  · exact absurd h hne
  rcases htight with h | ht
  · exact absurd h hne
  exact ⟨hmem, hcell, hw, hh, ht⟩

theorem foldMin_eq_self {α : Type} [LinearOrder α] {x : α} {xs : List α}
    (h : ∀ y ∈ xs, x ≤ y) : foldMin x xs = x := by
  unfold foldMin
  induction xs with
  | nil => rfl
  | cons y ys ih =>
    rw [List.foldl_cons, min_eq_left (h y (List.mem_cons_self y ys))]
    exact ih fun z hz => h z (List.mem_cons_of_mem y hz)

theorem foldMax_ge_init {α : Type} [LinearOrder α] (x : α) (xs : List α) :
    x ≤ foldMax x xs := by
  unfold foldMax
  induction xs generalizing x with
  | nil => exact le_refl x
  | cons y ys ih =>
    rw [List.foldl_cons]
    exact le_trans (le_max_left x y) (ih (max x y))

theorem foldMax_ge_mem {α : Type} [LinearOrder α] {x m : α} {xs : List α}
    (h : m ∈ xs) : m ≤ foldMax x xs := by
  unfold foldMax
  induction xs generalizing x with
  | nil => cases h
  | cons y ys ih =>
    rw [List.foldl_cons]
    rcases List.mem_cons.mp h with rfl | h
    · exact le_trans (le_max_right x m) (foldMax_ge_init _ ys)
    · exact ih h

theorem foldMax_le {α : Type} [LinearOrder α] {x m : α} {xs : List α}
    (hx : x ≤ m) (h : ∀ y ∈ xs, y ≤ m) : foldMax x xs ≤ m := by
  unfold foldMax
  induction xs generalizing x with
  | nil => exact hx
  | cons y ys ih =>
    rw [List.foldl_cons]
    exact ih (max_le hx (h y (List.mem_cons_self y ys)))
      fun z hz => h z (List.mem_cons_of_mem y hz)

theorem foldMax_eq {α : Type} [LinearOrder α] {x m : α} {xs : List α}
    (hmem : m = x ∨ m ∈ xs) (hx : x ≤ m) (hub : ∀ y ∈ xs, y ≤ m) :
    foldMax x xs = m := by
  refine le_antisymm (foldMax_le hx hub) ?_
  rcases hmem with rfl | hmem
  · exact foldMax_ge_init m xs
  · exact foldMax_ge_mem hmem

theorem ratPlacements_eq (self : MenuLayout) (children : List Child) (width height : ℤ) :
    ratPlacements self children width height =
      children.enum.map fun ic =>
        if ic.2.shouldLayout then
          some (gridRect self (allocGeometry self children width height) width height ic.1)
        else none := by
  unfold ratPlacements gridRect
  by_cases h : children.isEmpty
  · rw [if_pos h]
    rw [List.isEmpty_iff.mp h]
    rfl
  · rw [if_neg h]

theorem reduceOption_ratPlacements {self : MenuLayout} {children : List Child}
    {width height : ℤ} (hall : ∀ c ∈ children, c.shouldLayout = true) :
    (ratPlacements self children width height).reduceOption =
      (List.range children.length).map
        (gridRect self (allocGeometry self children width height) width height) := by
  rw [ratPlacements_eq]
  have hmap : children.enum.map (fun ic =>
      if ic.2.shouldLayout then
        some (gridRect self (allocGeometry self children width height) width height ic.1)
      else none) =
    children.enum.map (fun ic =>
      some (gridRect self (allocGeometry self children width height) width height ic.1)) := by
    refine List.map_congr_left fun ic hic => ?_
    have hsnd : ic.2 ∈ children := by
      obtain ⟨i, c⟩ := ic
      rw [List.enum_eq_zip_range] at hic
      exact (List.of_mem_zip hic).2
    rw [if_pos (hall ic.2 hsnd)]
  rw [hmap]
  have hcomp : children.enum.map (fun ic =>
      some (gridRect self (allocGeometry self children width height) width height ic.1)) =
    children.enum.map ((some ∘
      gridRect self (allocGeometry self children width height) width height) ∘ Prod.fst) :=
    rfl
  rw [hcomp, ← List.map_map, List.enum_map_fst, List.reduceOption, List.filterMap_map]
  simp [Function.comp]

/-- Bounding box of a full row-major grid of `n` congruent rectangles with
nonnegative steps: left/top are the base corner, right/bottom are reached in
the last column (index `cols - 1`) and the last row (index `(n - 1) / cols =
rows - 1`, using tightness). -/
theorem bbox_grid_arith {n cols rows : ℕ} {bX bY s t w h : ℚ}
    (hn : 1 ≤ n) (hcols1 : 1 ≤ cols) (hcolsn : cols ≤ n)
    (hrows1 : 1 ≤ rows) (htr : n ≤ rows * cols) (htc : rows * cols < n + cols)
    (hs : 0 ≤ s) (ht : 0 ≤ t) :
    bbox ((List.range n).map fun i =>
        (⟨bX + ((i % cols : ℕ) : ℚ) * s, bY + ((i / cols : ℕ) : ℚ) * t, w, h⟩ : RatRect)) =
      some (bX, bY, bX + ((cols - 1 : ℕ) : ℚ) * s + w, bY + ((rows - 1 : ℕ) : ℚ) * t + h) := by
  obtain ⟨m, rfl⟩ : ∃ m, n = m + 1 := ⟨n - 1, by omega⟩
  rw [List.range_succ_eq_map, List.map_cons, List.map_map, show ∀ (r : RatRect) rs,
    bbox (r :: rs) = some (foldMin r.x (rs.map (·.x)), foldMin r.y (rs.map (·.y)),
      foldMax (r.x + r.w) (rs.map fun u => u.x + u.w),
      foldMax (r.y + r.h) (rs.map fun u => u.y + u.h)) from fun _ _ => rfl]
  dsimp only
  have hdivm : m / cols = rows - 1 := by
    apply Nat.div_eq_of_lt_le
    · have : (rows - 1) * cols = rows * cols - cols := by
        rw [Nat.sub_mul, one_mul]
      omega
    · have : (rows - 1 + 1) * cols = rows * cols := by
        have : rows - 1 + 1 = rows := by omega
        rw [this]
      omega
  have hmodle : ∀ i : ℕ, ((i % cols : ℕ) : ℚ) ≤ ((cols - 1 : ℕ) : ℚ) := by
    intro i
    have : i % cols ≤ cols - 1 := by
      have := Nat.mod_lt i (show 0 < cols by omega)
      omega
    exact_mod_cast this
  have hdivle : ∀ i : ℕ, i ≤ m → ((i / cols : ℕ) : ℚ) ≤ ((rows - 1 : ℕ) : ℚ) := by
    intro i hi
    have : i / cols ≤ m / cols := Nat.div_le_div_right hi
    rw [hdivm] at this
    exact_mod_cast this
  have hq0 : ∀ i : ℕ, (0 : ℚ) ≤ ((i % cols : ℕ) : ℚ) := fun i => by positivity
  have hd0 : ∀ i : ℕ, (0 : ℚ) ≤ ((i / cols : ℕ) : ℚ) := fun i => by positivity
  congr 1
  refine Prod.ext ?_ (Prod.ext ?_ (Prod.ext ?_ ?_)) <;> dsimp only
  · -- left edge
    show foldMin _ _ = _
    have h0 : ((0 % cols : ℕ) : ℚ) = 0 := by
      rw [Nat.zero_mod]
      norm_num
    rw [foldMin_eq_self]
    · rw [h0]; ring
    · intro y hy
      rcases List.mem_map.mp hy with ⟨r, hr, rfl⟩
      rcases List.mem_map.mp hr with ⟨j, _, rfl⟩
      simp only [Function.comp]
      rw [h0]
      have := hq0 (Nat.succ j)
      nlinarith [mul_nonneg (hq0 (Nat.succ j)) hs]
  · -- top edge
    show foldMin _ _ = _
    have h0 : ((0 / cols : ℕ) : ℚ) = 0 := by
      rw [Nat.zero_div]
      norm_num
    rw [foldMin_eq_self]
    · rw [h0]; ring
    · intro y hy
      rcases List.mem_map.mp hy with ⟨r, hr, rfl⟩
      rcases List.mem_map.mp hr with ⟨j, _, rfl⟩
      simp only [Function.comp]
      rw [h0]
      nlinarith [mul_nonneg (hd0 (Nat.succ j)) ht]
  · -- right edge
    show foldMax _ _ = _
    have h0 : ((0 % cols : ℕ) : ℚ) = 0 := by
      rw [Nat.zero_mod]
      norm_num
    apply foldMax_eq
    · rcases eq_or_lt_of_le hcols1 with h1 | h2
      · left
        rw [h0, ← h1]
        norm_num
      · right
        refine List.mem_map.mpr ⟨_, List.mem_map.mpr ⟨cols - 2, List.mem_range.mpr ?_, rfl⟩, ?_⟩
        · omega
        · simp only [Function.comp]
          have hsucc : Nat.succ (cols - 2) = cols - 1 := by omega
          rw [hsucc, Nat.mod_eq_of_lt (by omega)]
    · rw [h0]
      nlinarith [mul_nonneg (show (0:ℚ) ≤ ((cols - 1 : ℕ) : ℚ) by positivity) hs]
    · intro y hy
      rcases List.mem_map.mp hy with ⟨r, hr, rfl⟩
      rcases List.mem_map.mp hr with ⟨j, _, rfl⟩
      simp only [Function.comp]
      have := hmodle (Nat.succ j)
      nlinarith [mul_le_mul_of_nonneg_right (hmodle (Nat.succ j)) hs]
  · -- bottom edge
    show foldMax _ _ = _
    have h0 : ((0 / cols : ℕ) : ℚ) = 0 := by
      rw [Nat.zero_div]
      norm_num
    apply foldMax_eq
    · rcases Nat.eq_zero_or_pos m with rfl | hm
      · left
        have hr1 : rows = 1 := by
          have h1 : rows * cols < 1 + cols := htc
          have h2 : cols ≤ rows * cols := Nat.le_mul_of_pos_left cols (by omega)
          by_contra hne
          have : 2 ≤ rows := by omega
          have : 2 * cols ≤ rows * cols := Nat.mul_le_mul_right cols this
          omega
        rw [h0, hr1]
        norm_num
      · right
        refine List.mem_map.mpr ⟨_, List.mem_map.mpr ⟨m - 1, List.mem_range.mpr ?_, rfl⟩, ?_⟩
        · omega
        · simp only [Function.comp]
          have hsucc : Nat.succ (m - 1) = m := by omega
          rw [hsucc, hdivm]
    · rw [h0]
      nlinarith [mul_nonneg (show (0:ℚ) ≤ ((rows - 1 : ℕ) : ℚ) by positivity) ht]
    · intro y hy
      rcases List.mem_map.mp hy with ⟨r, hr, rfl⟩
      rcases List.mem_map.mp hr with ⟨j, hj, rfl⟩
      simp only [Function.comp]
      have hjm : Nat.succ j ≤ m := by
        have := List.mem_range.mp hj
        omega
      nlinarith [mul_le_mul_of_nonneg_right (hdivle (Nat.succ j) hjm) ht]

theorem toUsize_lt (w : ℤ) : toUsize w < USZ := by
  unfold toUsize
  have h1 : (0 : ℤ) < (USZ : ℤ) := by norm_num [USZ]
  have h2 := Int.emod_lt_of_pos w h1
  have h3 := Int.emod_nonneg w (ne_of_gt h1)
  omega

/-- C5, amended: when the effective column spacing (raw spacing scaled by the
aspect ratio) agrees with the clamped integer column spacing used for the
footprint, and likewise for rows, the bounding box of the exact (pre-cast)
placement rectangles of a fully-participating non-empty child list is centered
exactly in the content box, under the packer's non-degeneracy hypotheses. -/
theorem c5_centering (self : MenuLayout) (children : List Child) (W H : ℤ)
    (hall : ∀ c ∈ children, c.shouldLayout = true)
    (hn : 1 ≤ children.length)
    (haspect : ∀ a, self.aspect = some a → 0 < a)
    (heffc : self.column_spacing * (self.aspect.getD 1) =
      ((spacingUsize self.column_spacing : ℕ) : ℚ))
    (heffr : self.row_spacing = ((spacingUsize self.row_spacing : ℕ) : ℚ))
    (hWpos : (children.length - 1) * spacingUsize self.column_spacing < toUsize W)
    (hHn : (children.length - 1) * spacingUsize self.row_spacing ≤ toUsize H)
    (hHpos : 0 < toUsize H) :
    ∃ L T R B, bbox ((ratPlacements self children W H).reduceOption) = some (L, T, R, B) ∧
      L + R = (W : ℚ) ∧ T + B = (H : ℚ) := by
  obtain ⟨hmem, hcell, hbw, hbh, htight⟩ :=
    gridPack_spec haspect hn (toUsize_lt W) (toUsize_lt H) hWpos hHn hHpos
  set n := children.length with hnn
  set csp := spacingUsize self.column_spacing with hcspdef
  set rsp := spacingUsize self.row_spacing with hrspdef
  have hgg : allocGeometry self children W H =
      gridPack self.aspect (toUsize W) (toUsize H) csp rsp n := rfl
  set g : Geom := gridPack self.aspect (toUsize W) (toUsize H) csp rsp n with hgdef
  obtain ⟨hr1, hrn, hc1, hcn, hacc1, hacc2, hacc3⟩ := mem_candidates.mp hmem
  rw [reduceOption_ratPlacements hall, hgg]
  have hmap : (List.range n).map (gridRect self g W H) =
      (List.range n).map (fun i =>
        (⟨(((W : ℚ) - ((g.cols - 1 : ℕ) : ℚ) * ((csp : ℚ) + g.bw) - g.bw) / 2) +
            ((i % g.cols : ℕ) : ℚ) * (g.bw + (csp : ℚ)),
          (((H : ℚ) - ((g.rows - 1 : ℕ) : ℚ) * ((rsp : ℚ) + g.bh) - g.bh) / 2) +
            ((i / g.cols : ℕ) : ℚ) * (g.bh + (rsp : ℚ)),
          g.bw, g.bh⟩ : RatRect)) := by
    refine List.map_congr_left fun i _ => ?_
    simp only [gridRect, Rect.mk.injEq]
    refine ⟨?_, ?_, trivial, trivial⟩
    · rw [mul_assoc (((i % g.cols : ℕ) : ℚ)) self.column_spacing (self.aspect.getD 1), heffc]
      ring
    · rw [show ((i / g.cols : ℕ) : ℚ) * self.row_spacing =
          ((i / g.cols : ℕ) : ℚ) * (rsp : ℚ) from by rw [heffr]]
      ring
  rw [hmap, bbox_grid_arith hn hc1 hcn hr1 hacc3 htight.2
    (by positivity) (by positivity)]
  refine ⟨_, _, _, _, rfl, ?_, ?_⟩
  · ring
  · ring

theorem foldl_envStep_filter :
    ∀ (children : List MeasChild) (acc : ℤ × ℤ × ℤ × ℤ),
      children.foldl envStep acc =
        (children.filter (·.shouldLayout)).foldl envStep acc := by
  intro children
  induction children with
  | nil => intro acc; rfl
  | cons c l ih =>
    intro acc
    by_cases hc : c.shouldLayout
    · rw [List.filter_cons_of_pos (by simpa using hc), List.foldl_cons, List.foldl_cons,
        ih]
    · rw [List.filter_cons_of_neg (by simpa using hc), List.foldl_cons,
        show envStep acc c = acc from by simp [envStep, hc], ih]

/-- The measure envelope ranges over exactly the participating children. -/
theorem envFold_filter (children : List MeasChild) :
    envFold children = envFold (children.filter (·.shouldLayout)) := by
  unfold envFold
  exact foldl_envStep_filter children _

theorem foldl_envStep_min :
    ∀ (children : List MeasChild) (acc : ℤ × ℤ × ℤ × ℤ),
      (children.foldl envStep acc).1 =
        ((children.filter (·.shouldLayout)).map (·.cmin)).foldl max acc.1 := by
  intro children
  induction children with
  | nil => intro acc; rfl
  | cons c l ih =>
    intro acc
    by_cases hc : c.shouldLayout
    · rw [List.filter_cons_of_pos (by simpa using hc), List.foldl_cons, List.map_cons,
        List.foldl_cons, ih]
      congr 1
      simp [envStep, hc, max_comm]
    · rw [List.filter_cons_of_neg (by simpa using hc), List.foldl_cons,
        show envStep acc c = acc from by simp [envStep, hc], ih]

theorem foldl_envStep_nat :
    ∀ (children : List MeasChild) (acc : ℤ × ℤ × ℤ × ℤ),
      (children.foldl envStep acc).2.1 =
        ((children.filter (·.shouldLayout)).map (·.cnat)).foldl max acc.2.1 := by
  intro children
  induction children with
  | nil => intro acc; rfl
  | cons c l ih =>
    intro acc
    by_cases hc : c.shouldLayout
    · rw [List.filter_cons_of_pos (by simpa using hc), List.foldl_cons, List.map_cons,
        List.foldl_cons, ih]
      congr 1
      simp [envStep, hc, max_comm]
    · rw [List.filter_cons_of_neg (by simpa using hc), List.foldl_cons,
        show envStep acc c = acc from by simp [envStep, hc], ih]

theorem envFold_min_spec (children : List MeasChild) :
    (envFold children).1 = envelopeMinSpec children := by
  unfold envFold envelopeMinSpec
  exact foldl_envStep_min children _

theorem envFold_nat_spec (children : List MeasChild) :
    (envFold children).2.1 = envelopeNatSpec children := by
  unfold envFold envelopeNatSpec
  exact foldl_envStep_nat children _

theorem ratRound_intCast (z : ℤ) : ratRound (z : ℚ) = z := by
  unfold ratRound
  split
  · rw [Int.floor_eq_iff]
    constructor
    · linarith
    · push_cast
      linarith
  · rw [Int.ceil_eq_iff]
    constructor
    · push_cast
      linarith
    · linarith

theorem cellDimsChecked_eq {aspect : Option ℚ} {wA hA csp rsp r c : ℕ}
    (hWU : wA < USZ) (hHU : hA < USZ)
    (hWc : (c - 1) * csp ≤ wA) (hHr : (r - 1) * rsp ≤ hA) :
    cellDimsChecked aspect wA hA csp rsp r c = some (cellDims aspect wA hA csp rsp r c) := by
  have hm1 : checkedMul (c - 1) csp = some ((c - 1) * csp) := by
    unfold checkedMul
    rw [if_pos (lt_of_le_of_lt hWc hWU)]
  have hm2 : checkedMul (r - 1) rsp = some ((r - 1) * rsp) := by
    unfold checkedMul
    rw [if_pos (lt_of_le_of_lt hHr hHU)]
  have hs1 : checkedSub wA ((c - 1) * csp) = some (wA - (c - 1) * csp) := by
    unfold checkedSub
    rw [if_pos hWc]
  have hs2 : checkedSub hA ((r - 1) * rsp) = some (hA - (r - 1) * rsp) := by
    unfold checkedSub
    rw [if_pos hHr]
  unfold cellDimsChecked cellDims
  dsimp only
  rw [usizeSub_usizeMul_eq hWU hWc, usizeSub_usizeMul_eq hHU hHr, hm1, hm2]
  simp only [Option.bind_eq_bind, Option.some_bind, hs1, hs2]
  cases aspect with
  | none => rfl
  | some a =>
    by_cases h1 : 1 ≤ a
    · simp only [h1, if_pos]
      rfl
    · simp only [h1, if_neg, not_false_iff]
      rfl

theorem gridPackChecked_eq {aspect : Option ℚ} {wA hA csp rsp n : ℕ}
    (hWU : wA < USZ) (hHU : hA < USZ)
    (hWn : (n - 1) * csp ≤ wA) (hHn : (n - 1) * rsp ≤ hA) :
    gridPackChecked aspect wA hA csp rsp n = some (gridPack aspect wA hA csp rsp n) := by
  unfold gridPackChecked gridPack
  have hok : ∀ rc ∈ candidates n,
      cellDimsChecked aspect wA hA csp rsp rc.1 rc.2 =
        some (cellDims aspect wA hA csp rsp rc.1 rc.2) := by
    intro rc hrc
    obtain ⟨rr, cc⟩ := rc
    obtain ⟨h1, h2, h3, h4, -, -, -⟩ := mem_candidates.mp hrc
    exact cellDimsChecked_eq hWU hHU
      (le_trans (Nat.mul_le_mul_right csp (by omega)) hWn)
      (le_trans (Nat.mul_le_mul_right rsp (by omega)) hHn)
  suffices h : ∀ (l : List (ℕ × ℕ)),
      (∀ rc ∈ l, cellDimsChecked aspect wA hA csp rsp rc.1 rc.2 =
        some (cellDims aspect wA hA csp rsp rc.1 rc.2)) →
      ∀ g : Geom,
        l.foldl (fun og rc => do
          let g ← og
          let wh ← cellDimsChecked aspect wA hA csp rsp rc.1 rc.2
          pure (if g.bw * g.bh < wh.1 * wh.2 then ⟨rc.1, rc.2, wh.1, wh.2⟩ else g))
          (some g) =
        some (l.foldl (packStep aspect wA hA csp rsp) g) by
    exact h (candidates n) hok ⟨1, 1, 0, 0⟩
  intro l
  induction l with
  | nil => intro _ g; rfl
  | cons x l ih =>
    intro hl g
    rw [List.foldl_cons, List.foldl_cons]
    have hx := hl x (List.mem_cons_self x l)
    rw [show ((do
        let g' ← some g
        let wh ← cellDimsChecked aspect wA hA csp rsp x.1 x.2
        pure (if g'.bw * g'.bh < wh.1 * wh.2 then (⟨x.1, x.2, wh.1, wh.2⟩ : Geom) else g')) :
          Option Geom) =
        some (packStep aspect wA hA csp rsp g x) from by
      rw [show ((do
          let g' ← some g
          let wh ← cellDimsChecked aspect wA hA csp rsp x.1 x.2
          pure (if g'.bw * g'.bh < wh.1 * wh.2 then (⟨x.1, x.2, wh.1, wh.2⟩ : Geom) else g')) :
            Option Geom) =
          (cellDimsChecked aspect wA hA csp rsp x.1 x.2).bind
            (fun wh => some (if g.bw * g.bh < wh.1 * wh.2 then ⟨x.1, x.2, wh.1, wh.2⟩ else g))
          from rfl]
      rw [hx]
      rfl]
    exact ih (fun rc hrc => hl rc (List.mem_cons_of_mem x hrc)) _

/-- Claim C1 (amended).  For every packer call with `n ≥ 1` participating
items whose inputs are non-degenerate — a positive aspect ratio when one is
set, a width whose clamped spacing budget leaves strictly positive room
(`(n-1)*csp < width as usize`, which also rules out wrapping of the `usize`
subtraction), no row-side wrapping (`(n-1)*rsp ≤ height as usize`) and a
positive height — the returned `(rows, cols)` satisfies the tightness
invariant `rows*cols ≥ n`, `rows*cols - n < rows`, `rows*cols - n < cols`.
As stated in the claim (over arbitrary width/height) it is false: degenerate
inputs fall back to the initial `1 × 1` geometry. -/
theorem c1_tightness {aspect : Option ℚ} {W H : ℤ} {csp rsp n : ℕ}
    (haspect : ∀ a, aspect = some a → 0 < a) (hn : 1 ≤ n)
    (hWpos : (n - 1) * csp < toUsize W)
    (hHn : (n - 1) * rsp ≤ toUsize H) (hHpos : 0 < toUsize H) :
    SpecTight n (gridPack aspect (toUsize W) (toUsize H) csp rsp n).rows
      (gridPack aspect (toUsize W) (toUsize H) csp rsp n).cols := by
  obtain ⟨hmem, -, -, -, htight⟩ :=
    gridPack_spec haspect hn (toUsize_lt W) (toUsize_lt H) hWpos hHn hHpos
  obtain ⟨-, -, -, -, -, -, hge⟩ := mem_candidates.mp hmem
  obtain ⟨ht1, ht2⟩ := htight
  exact ⟨hge, by omega, by omega⟩

/-- Claim C1 witness: a concrete non-degenerate instance (`n = 2`,
width = height = 100, no spacing, no aspect ratio). -/
theorem c1_tightness_witness :
    SpecTight 2 (gridPack none (toUsize 100) (toUsize 100) 0 0 2).rows
      (gridPack none (toUsize 100) (toUsize 100) 0 0 2).cols :=
  c1_tightness (fun a h => nomatch h) (by decide) (by decide) (by decide) (by decide)

/-- Claim C1 counterexample: with `n = 2` and a degenerate `0 × 0` box, the
packer falls back to `rows = cols = 1`, so `rows*cols ≥ n` fails; the claim
as stated (any width and height) is false on the code. -/
theorem c1_tightness_counterexample :
    ¬ SpecTight 2 (gridPack none (toUsize 0) (toUsize 0) 0 0 2).rows
      (gridPack none (toUsize 0) (toUsize 0) 0 0 2).cols := by
  rw [show toUsize 0 = 0 from by decide, gridPack_eval_degenerate]
  unfold SpecTight
  decide

/-- Claim C2 (amended).  For `n = 6`, no aspect ratio, width 600, height 300
and zero spacings, the packer returns `rows = 1, cols = 6` with cell
`100 × 300`: the `1 × 6` partition is iterated first, and the later
equal-area candidates (such as `2 × 3`, also area 30000) do not replace it
because replacement requires a strictly larger area — the documented
first-candidate-wins tie rule, applied to the actual iteration order. -/
theorem c2_first_tie_wins :
    allocGeometry ⟨0, 0, none⟩ (List.replicate 6 ⟨true⟩) 600 300 = ⟨1, 6, 100, 300⟩ := by
  rw [allocGeometry, show toUsize 600 = 600 from by decide,
    show toUsize 300 = 300 from by decide, spacingUsize_zero, List.length_replicate]
  exact gridPack_eval_600_300

/-- Claim C2 counterexample: the claimed result `rows = 2, cols = 3,
cell 200 × 150` is not what the code returns for those inputs. -/
theorem c2_counterexample :
    ¬((allocGeometry ⟨0, 0, none⟩ (List.replicate 6 ⟨true⟩) 600 300).rows = 2 ∧
      (allocGeometry ⟨0, 0, none⟩ (List.replicate 6 ⟨true⟩) 600 300).cols = 3 ∧
      (allocGeometry ⟨0, 0, none⟩ (List.replicate 6 ⟨true⟩) 600 300).bw = 200 ∧
      (allocGeometry ⟨0, 0, none⟩ (List.replicate 6 ⟨true⟩) 600 300).bh = 150) := by
  rw [allocGeometry, show toUsize 600 = 600 from by decide,
    show toUsize 300 = 300 from by decide, spacingUsize_zero, List.length_replicate,
    gridPack_eval_600_300]
  intro h
  exact absurd h.1 (by norm_num)

/-- Claim C3 (amended).  For `n = 5` at 500 × 500 with no spacing and no
aspect ratio the packer chooses `(1, 5)` (cell area 50000, strictly larger
than the 41666.7 of `(2, 3)`), not `(2, 3)` or `(3, 2)`; the general
area-maximality part of the claim holds: the returned geometry's cell area
is at least the cell area of every candidate pair accepted by the loop's
tightness filter. -/
theorem c3_area_maximal :
    allocGeometry ⟨0, 0, none⟩ (List.replicate 5 ⟨true⟩) 500 500 = ⟨1, 5, 100, 500⟩ ∧
    ∀ (aspect : Option ℚ) (wA hA csp rsp n r c : ℕ),
      1 ≤ r → r ≤ n → 1 ≤ c → c ≤ n →
      r * c ≤ n + r → r * c ≤ n + c → n ≤ r * c →
      cellArea aspect wA hA csp rsp (r, c) ≤
        (gridPack aspect wA hA csp rsp n).bw * (gridPack aspect wA hA csp rsp n).bh := by
  constructor
  · rw [allocGeometry, show toUsize 500 = 500 from by decide, spacingUsize_zero,
      List.length_replicate]
    exact gridPack_eval_500_500
  · intro aspect wA hA csp rsp n r c h1 h2 h3 h4 h5 h6 h7
    exact (gridPack_inv aspect wA hA csp rsp n).2 (r, c)
      (mem_candidates.mpr ⟨h1, h2, h3, h4, h5, h6, h7⟩)

/-- Claim C3 witness: the tight pair `(2, 3)` for `n = 5` at 500 × 500 has
cell area at most the returned one. -/
theorem c3_area_maximal_witness :
    cellArea none 500 500 0 0 (2, 3) ≤
      (gridPack none 500 500 0 0 5).bw * (gridPack none 500 500 0 0 5).bh :=
  c3_area_maximal.2 none 500 500 0 0 5 2 3 (by decide) (by decide) (by decide)
    (by decide) (by decide) (by decide) (by decide)

/-- Claim C3 counterexample: the packer does not choose `(2, 3)` or `(3, 2)`
for `n = 5` at 500 × 500 — `(1, 5)` has the strictly largest cell area. -/
theorem c3_counterexample :
    ¬(((allocGeometry ⟨0, 0, none⟩ (List.replicate 5 ⟨true⟩) 500 500).rows,
        (allocGeometry ⟨0, 0, none⟩ (List.replicate 5 ⟨true⟩) 500 500).cols) = (2, 3) ∨
      ((allocGeometry ⟨0, 0, none⟩ (List.replicate 5 ⟨true⟩) 500 500).rows,
        (allocGeometry ⟨0, 0, none⟩ (List.replicate 5 ⟨true⟩) 500 500).cols) = (3, 2)) := by
  rw [allocGeometry, show toUsize 500 = 500 from by decide, spacingUsize_zero,
    List.length_replicate, gridPack_eval_500_500]
  intro h
  rcases h with h | h <;> exact absurd h (by decide)

/-- Claim C4 (code bug).  For `n = 4`, aspect ratio 2, 400 × 400, zero
spacing, the code returns `rows = cols = 2` with cell `400 × 200`: the
spurious `* aspect` before the `/ aspect` in the wide-aspect branch cancels
the documented `width_quotient / aspect` cap, so `cols * cell_width = 800`
exceeds the available width 400 (adjacent tiles overlap), violating the
claimed `cols * cell_width ≤ 400`; the aspect-exactness part
(`cell_width = 2 * cell_height`) does hold. -/
theorem c4_aspect_overflow :
    allocGeometry ⟨0, 0, some 2⟩ (List.replicate 4 ⟨true⟩) 400 400 = ⟨2, 2, 400, 200⟩ ∧
    ¬(((allocGeometry ⟨0, 0, some 2⟩ (List.replicate 4 ⟨true⟩) 400 400).cols : ℚ) *
        (allocGeometry ⟨0, 0, some 2⟩ (List.replicate 4 ⟨true⟩) 400 400).bw ≤ 400) ∧
    (allocGeometry ⟨0, 0, some 2⟩ (List.replicate 4 ⟨true⟩) 400 400).bw =
      2 * (allocGeometry ⟨0, 0, some 2⟩ (List.replicate 4 ⟨true⟩) 400 400).bh := by
  have hg : allocGeometry ⟨0, 0, some 2⟩ (List.replicate 4 ⟨true⟩) 400 400 =
      ⟨2, 2, 400, 200⟩ := by
    rw [allocGeometry, show toUsize 400 = 400 from by decide, spacingUsize_zero,
      List.length_replicate]
    exact gridPack_eval_aspect2
  refine ⟨hg, ?_, ?_⟩
  · rw [hg]
    norm_num
  · rw [hg]
    norm_num

/-- Claim C5 witness: a concrete instance (two items, 100 × 100, integer
spacing 5, no aspect ratio) where the effective and footprint spacings agree
and the bounding box of the exact placements is centered. -/
theorem c5_centering_witness :
    ∃ L T R B,
      bbox ((ratPlacements ⟨5, 5, none⟩ [⟨true⟩, ⟨true⟩] 100 100).reduceOption) =
        some (L, T, R, B) ∧
      L + R = ((100 : ℤ) : ℚ) ∧ T + B = ((100 : ℤ) : ℚ) := by
  have h5 : spacingUsize (5 : ℚ) = 5 := by
    rw [show (5 : ℚ) = ((5 : ℕ) : ℚ) by norm_num, spacingUsize_natCast 5 (by norm_num)]
  exact c5_centering ⟨5, 5, none⟩ [⟨true⟩, ⟨true⟩] 100 100 (by decide) (by decide)
    (fun a h => nomatch h)
    (by show (5 : ℚ) * ((none : Option ℚ).getD 1) = _; rw [h5]; norm_num)
    (by show (5 : ℚ) = _; rw [h5]; norm_num)
    (by show _ * spacingUsize (5 : ℚ) < _; rw [h5]; decide)
    (by show _ * spacingUsize (5 : ℚ) ≤ _; rw [h5]; decide)
    (by decide)

/-- Claim C5 counterexample: with raw column spacing 10 and aspect ratio 3,
the footprint/centering offset uses the clamped integer spacing 10 while the
per-item step uses the raw spacing scaled by the aspect (30), so the bounding
box of the written (integer) placement rectangles is off-center by 10 pixels
(center 210 versus 200): not within half a pixel. -/
theorem c5_counterexample :
    bbox ((MenuLayout.allocate ⟨10, 0, some 3⟩ [⟨true⟩, ⟨true⟩] 400 100).reduceOption) =
      some (-105, 0, 525, 100) ∧
    ¬(|(-105 + 525 : ℤ) - 400| ≤ 1) := by
  constructor
  · rw [allocate_eval_c5]
    decide
  · decide

/-- Claim C6 (amended).  `measure` never reads the `aspect-ratio-set`
property: its result is independent of that flag, and the aspect adjustment
is applied unconditionally with the raw `aspect-ratio` property value.  With
the value 1.0 that the constructor stores when no aspect ratio is set, the
natural size for a known cross-size `s` (`for_size ≠ -1`, horizontal) is the
envelope natural CAPPED at `s` and floored at the envelope minimum — not
simply the envelope maximum as claimed. -/
theorem c6_measure_aspect :
    (∀ (a : ℚ) (s1 s2 : Bool) (wW wH : ℤ) (ch : List MeasChild) (o : Orient) (fs : ℤ),
      layoutMeasure a s1 wW wH ch o fs = layoutMeasure a s2 wW wH ch o fs) ∧
    (∀ (st : Bool) (wW wH : ℤ) (ch : List MeasChild) (s : ℤ), s ≠ -1 →
      (layoutMeasure 1 st wW wH ch .horizontal s).2.1 =
        max (min (envelopeNatSpec ch) (clampI32 s)) (envelopeMinSpec ch)) := by
  constructor
  · intro a s1 s2 wW wH ch o fs
    rfl
  · intro st wW wH ch s hs
    unfold layoutMeasure
    dsimp only
    rw [if_neg hs]
    rw [mul_one, show roundToI32 ((s : ℤ) : ℚ) = clampI32 s from by
      rw [roundToI32, ratRound_intCast], envFold_nat_spec, envFold_min_spec]

/-- Claim C6 witness: the capped-natural formula at a concrete input. -/
theorem c6_measure_aspect_witness :
    (layoutMeasure 1 false 0 0 [⟨true, 0, 500, -1, -1⟩] .horizontal 100).2.1 =
      max (min (envelopeNatSpec [⟨true, 0, 500, -1, -1⟩]) (clampI32 100))
        (envelopeMinSpec [⟨true, 0, 500, -1, -1⟩]) :=
  c6_measure_aspect.2 false 0 0 [⟨true, 0, 500, -1, -1⟩] 100 (by decide)

/-- Claim C6 counterexample: with the aspect-ratio-set flag false (aspect
property 1.0, the constructor default for `None`), one participating child of
natural size 500 and a known cross-size of 100, `measure` returns natural
100, not the envelope maximum 500. -/
theorem c6_counterexample :
    (layoutMeasure 1 false 0 0 [⟨true, 0, 500, -1, -1⟩] .horizontal 100).2.1 ≠
      envelopeNatSpec [⟨true, 0, 500, -1, -1⟩] := by
  have henv : envFold [⟨true, 0, 500, -1, -1⟩] = (0, 500, -1, -1) := by decide
  have hval : (layoutMeasure 1 false 0 0 [⟨true, 0, 500, -1, -1⟩] .horizontal 100).2.1 =
      100 := by
    unfold layoutMeasure
    rw [henv]
    dsimp only
    rw [if_neg (by decide : (100 : ℤ) ≠ -1)]
    rw [mul_one, show roundToI32 (((100 : ℤ)) : ℚ) = clampI32 100 from by
      rw [roundToI32, ratRound_intCast]]
    decide
  rw [hval]
  decide

/-- Claim C7 (amended).  The measurement pass ranges over exactly the
participating children (filtering by `should_layout` changes nothing), but
the allocate pass collects ALL children: the geometry depends only on the
total child count (forcing every `participates` flag to true changes
nothing), and participation only gates whether a child receives a placement
(`isSome` of the result matches the flags, position by position).  The
claim's assertion that the packer's `n` counts only participating children
is false. -/
theorem c7_collection :
    (∀ (a : ℚ) (st : Bool) (wW wH : ℤ) (ch : List MeasChild) (o : Orient) (fs : ℤ),
      layoutMeasure a st wW wH ch o fs =
        layoutMeasure a st wW wH (ch.filter (·.shouldLayout)) o fs) ∧
    (∀ (self : MenuLayout) (children : List Child) (W H : ℤ),
      allocGeometry self children W H =
        allocGeometry self (children.map fun _ => ⟨true⟩) W H) ∧
    (∀ (self : MenuLayout) (children : List Child) (W H : ℤ),
      (MenuLayout.allocate self children W H).map Option.isSome =
        children.map (·.shouldLayout)) := by
  refine ⟨?_, ?_, ?_⟩
  · intro a st wW wH ch o fs
    unfold layoutMeasure
    dsimp only
    rw [envFold_filter]
  · intro self children W H
    unfold allocGeometry
    rw [List.length_map]
  · intro self children W H
    rw [MenuLayout.allocate, ratPlacements_eq, List.map_map, List.map_map]
    have hfun : ∀ ic ∈ children.enum,
        ((Option.isSome ∘ fun o : Option RatRect =>
            o.map fun r => (⟨f64toI32 r.x, f64toI32 r.y, f64toI32 r.w, f64toI32 r.h⟩ :
              IntRect)) ∘ (fun ic : ℕ × Child =>
          if ic.2.shouldLayout then
            some (gridRect self (allocGeometry self children W H) W H ic.1)
          else none)) ic = ic.2.shouldLayout := by
      intro ic _
      by_cases h : ic.2.shouldLayout <;> simp [h]
    rw [List.map_congr_left hfun]
    rw [show (fun ic : ℕ × Child => ic.2.shouldLayout) =
      (fun c : Child => c.shouldLayout) ∘ Prod.snd from rfl]
    rw [← List.map_map, List.enum_map_snd]

/-- Claim C7 counterexample: one participating and one hidden child give a
different geometry than the participating child alone — the packer's `n`
counted the hidden child. -/
theorem c7_counterexample :
    allocGeometry ⟨0, 0, none⟩ [⟨true⟩, ⟨false⟩] 100 100 ≠
      allocGeometry ⟨0, 0, none⟩ [⟨true⟩] 100 100 := by
  rw [allocGeometry, allocGeometry, show toUsize 100 = 100 from by decide,
    spacingUsize_zero]
  rw [show (List.length [(⟨true⟩ : Child), ⟨false⟩]) = 2 from rfl,
    show (List.length [(⟨true⟩ : Child)]) = 1 from rfl,
    gridPack_eval_100_100_2, gridPack_eval_100_100_1]
  intro h
  exact absurd (congrArg Geom.cols h) (by decide)

/-- Claim C8 (amended).  The chosen cell area is monotone in the available
width, provided neither width underflows the `usize` subtraction against the
column-gap budget (`(n-1)*csp ≤ width₁ ≤ width₂ < 2^64`); without that
restriction the wrapping subtraction (or the `i32 → usize` cast of a negative
width) produces a huge quotient at the smaller width and the claim fails. -/
theorem c8_monotone (aspect : Option ℚ) (wA1 wA2 hA csp rsp n : ℕ)
    (hW2U : wA2 < USZ) (h12 : wA1 ≤ wA2) (hWc : (n - 1) * csp ≤ wA1) :
    (gridPack aspect wA1 hA csp rsp n).bw * (gridPack aspect wA1 hA csp rsp n).bh ≤
      (gridPack aspect wA2 hA csp rsp n).bw * (gridPack aspect wA2 hA csp rsp n).bh := by
  have inv1 := gridPack_inv aspect wA1 hA csp rsp n
  have inv2 := gridPack_inv aspect wA2 hA csp rsp n
  rcases inv1.1 with h | ⟨hmem, hcell, hw, hh⟩
  · rw [h]
    simpa using inv2.area_nonneg
  · have hbw : (gridPack aspect wA1 hA csp rsp n).bw =
        (cellDims aspect wA1 hA csp rsp (gridPack aspect wA1 hA csp rsp n).rows
          (gridPack aspect wA1 hA csp rsp n).cols).1 := congrArg Prod.fst hcell
    have hbh : (gridPack aspect wA1 hA csp rsp n).bh =
        (cellDims aspect wA1 hA csp rsp (gridPack aspect wA1 hA csp rsp n).rows
          (gridPack aspect wA1 hA csp rsp n).cols).2 := congrArg Prod.snd hcell
    have harea1 : (gridPack aspect wA1 hA csp rsp n).bw *
        (gridPack aspect wA1 hA csp rsp n).bh =
        cellArea aspect wA1 hA csp rsp ((gridPack aspect wA1 hA csp rsp n).rows,
          (gridPack aspect wA1 hA csp rsp n).cols) := by
      rw [cellArea, hbw, hbh]
    obtain ⟨h1, h2, h3, h4, -, -, -⟩ := mem_candidates.mp hmem
    have hWc' : ((gridPack aspect wA1 hA csp rsp n).cols - 1) * csp ≤ wA1 :=
      le_trans (Nat.mul_le_mul_right csp (by omega)) hWc
    have hle2 : ∀ haspect : (∀ a, aspect = some a → 0 < a),
        (gridPack aspect wA1 hA csp rsp n).bw * (gridPack aspect wA1 hA csp rsp n).bh ≤
          (gridPack aspect wA2 hA csp rsp n).bw * (gridPack aspect wA2 hA csp rsp n).bh := by
      intro haspect
      rw [harea1]
      exact le_trans (cellArea_mono_wAvail haspect hW2U h12 h3 hWc')
        (inv2.2 _ (by simpa using hmem))
    rcases aspect with _ | a
    · exact hle2 fun a h => nomatch h
    · rcases le_or_lt a 0 with ha | ha
      · rw [harea1]
        exact le_trans (cellArea_nonpos_of_aspect ha wA1 hA csp rsp _) inv2.area_nonneg
      · exact hle2 fun b hb => by
          obtain rfl := Option.some.inj hb
          exact ha

/-- Claim C8 witness: growing the width from 100 to 200 (one item, height
100, no spacing) does not shrink the chosen cell area. -/
theorem c8_monotone_witness :
    (gridPack none 100 100 0 0 1).bw * (gridPack none 100 100 0 0 1).bh ≤
      (gridPack none 200 100 0 0 1).bw * (gridPack none 200 100 0 0 1).bh :=
  c8_monotone none 100 200 100 0 0 1 (by decide) (by decide) (by decide)

/-- Claim C8 counterexample: increasing the `i32` width from -1 to 0 (one
item, height 100, no spacing) strictly decreases the chosen cell area,
because `-1 as usize` is `2^64 - 1`. -/
theorem c8_counterexample :
    (-1 : ℤ) < 0 ∧
    (gridPack none (toUsize 0) 100 0 0 1).bw * (gridPack none (toUsize 0) 100 0 0 1).bh <
      (gridPack none (toUsize (-1)) 100 0 0 1).bw *
        (gridPack none (toUsize (-1)) 100 0 0 1).bh := by
  refine ⟨by decide, ?_⟩
  rw [show toUsize 0 = 0 from by decide,
    show toUsize (-1) = 18446744073709551615 from by decide,
    gridPack_eval_w0, gridPack_eval_wrap]
  norm_num

/-- Claim C9 (amended).  Under release (wrapping) semantics the packer is a
total function; under checked (debug) arithmetic it completes — returning
exactly the wrapping-semantics geometry — whenever the `usize` subtractions
cannot underflow, i.e. when `(n-1) * spacing` fits under the converted width
and height.  The claim's "no panic for any width and any spacings" is false
for checked arithmetic: `width = 0` with positive column spacing underflows
(and quotients are never negative, contrary to the spec's account — negative
`i32` sizes become huge positive `usize` values). -/
theorem c9_checked_total (aspect : Option ℚ) (W H : ℤ) (csp rsp n : ℕ)
    (hWn : (n - 1) * csp ≤ toUsize W) (hHn : (n - 1) * rsp ≤ toUsize H) :
    gridPackChecked aspect (toUsize W) (toUsize H) csp rsp n =
      some (gridPack aspect (toUsize W) (toUsize H) csp rsp n) :=
  gridPackChecked_eq (toUsize_lt W) (toUsize_lt H) hWn hHn

/-- Claim C9 witness: a concrete successful checked run. -/
theorem c9_checked_total_witness :
    gridPackChecked none (toUsize 100) (toUsize 100) 0 0 2 =
      some (gridPack none (toUsize 100) (toUsize 100) 0 0 2) :=
  c9_checked_total none 100 100 0 0 2 (by decide) (by decide)

/-- Claim C9 counterexample: width 0 with column spacing 1 and two children
underflows the `usize` subtraction — a debug build panics (the checked model
returns `none`), refuting "runs to completion for any spacings and any
width". -/
theorem c9_counterexample :
    gridPackChecked none (toUsize 0) (toUsize 0) 1 0 2 = none := by
  rw [show toUsize 0 = 0 from by decide]
  decide

theorem f64toI32_nonneg {q : ℚ} (hq : 0 ≤ q) : 0 ≤ f64toI32 q := by
  unfold f64toI32 clampI32 ratTrunc
  rw [if_pos hq]
  have h0 : (0 : ℤ) ≤ ⌊q⌋ := Int.floor_nonneg.mpr hq
  have hmin : (0 : ℤ) ≤ min (2 ^ 31 - 1) ⌊q⌋ := le_min (by norm_num) h0
  exact le_trans hmin (le_max_right _ _)

theorem gridPack_cells_nonneg (aspect : Option ℚ) (wA hA csp rsp n : ℕ) :
    0 ≤ (gridPack aspect wA hA csp rsp n).bw ∧
      0 ≤ (gridPack aspect wA hA csp rsp n).bh := by
  rcases (gridPack_inv aspect wA hA csp rsp n).1 with h | ⟨-, -, hw, hh⟩
  · rw [h]
    exact ⟨le_refl 0, le_refl 0⟩
  · exact ⟨le_of_lt hw, le_of_lt hh⟩

/-- Claim C10.  Every placement rectangle the allocator writes has
nonnegative width and height: the running best starts at `0 × 0`, is only
replaced by strictly larger (hence positive) areas with nonnegative height,
and the final `f64 → i32` cast preserves nonnegativity. -/
theorem c10_nonneg (self : MenuLayout) (children : List Child) (W H : ℤ) :
    ∀ o ∈ MenuLayout.allocate self children W H, ∀ r : IntRect, o = some r →
      0 ≤ r.w ∧ 0 ≤ r.h := by
  intro o ho r hor
  subst hor
  rw [MenuLayout.allocate] at ho
  obtain ⟨o', ho', hmap⟩ := List.mem_map.mp ho
  cases o' with
  | none => exact absurd hmap (by simp)
  | some r0 =>
    rw [Option.map_some'] at hmap
    obtain hr := Option.some.inj hmap
    rw [ratPlacements_eq] at ho'
    obtain ⟨ic, hic, hif⟩ := List.mem_map.mp ho'
    split at hif
    · obtain rfl := Option.some.inj hif
      have hg := gridPack_cells_nonneg self.aspect (toUsize W) (toUsize H)
        (spacingUsize self.column_spacing) (spacingUsize self.row_spacing) children.length
      have hw0 : (0 : ℚ) ≤ (gridRect self (allocGeometry self children W H) W H ic.1).w :=
        hg.1
      have hh0 : (0 : ℚ) ≤ (gridRect self (allocGeometry self children W H) W H ic.1).h :=
        hg.2
      rw [← hr]
      exact ⟨f64toI32_nonneg hw0, f64toI32_nonneg hh0⟩
    · exact absurd hif (by simp)

/-- Claim C10 witness: a concrete allocation whose written rectangle has
nonnegative sides. -/
theorem c10_nonneg_witness :
    0 ≤ (⟨0, 0, 100, 100⟩ : IntRect).w ∧ 0 ≤ (⟨0, 0, 100, 100⟩ : IntRect).h :=
  c10_nonneg ⟨0, 0, none⟩ [⟨true⟩] 100 100 (some ⟨0, 0, 100, 100⟩)
    (by rw [allocate_eval_one]; exact List.mem_singleton_self _) ⟨0, 0, 100, 100⟩ rfl
